import Mathlib

/-!
Shallow embedding of the block-assembly core of `mempool-util`
(src/audittx.rs, src/util.rs, src/blockmk.rs).

Modelling conventions:
* Rust `u64`/`u32`/`usize` fields become `Nat` (all arithmetic in the code
  stays well inside the machine range on the inputs considered, and the one
  subtraction, in `update_descendants`, is protected by the invariant
  `ancestor_weight = weight + sum of ancestor weights`).
* `f64` scores become `ℚ`.  Every concrete score appearing in a theorem below
  is chosen so that the corresponding IEEE-754 double computation is exact
  (dyadic values, or values whose comparisons are decided far away from the
  `f64::EPSILON` window), so the rational model and the double model agree at
  those points.
* `f64::INFINITY` (the initial `dependency_rate`, the initial `lo_score`)
  becomes `Option ℚ` with `none` standing for `+∞`.
* `HashMap<usize, AuditTx>` becomes an association list `List (Nat × AuditTx)`;
  `HashSet<usize>` becomes a duplicate-free `List Nat` (insertion checks
  membership first, exactly as a set does).  Iteration order of a hash
  container is modelled by the list order.
* Rust `Vec` stacks (`pool_stack`, `descendant_stack`, `overflow`) push and
  pop at the back; they are modelled by lists whose HEAD is the Vec's back,
  so `push = cons` and `pop = tail`.
* Panics (`expect`, `assert!`) and running out of fuel are distinguished by
  the result type `Res`: `.panicked` models an abort, `.noFuel` means the
  step bound was exhausted (never the case on the concrete runs below).
-/

/- The Batteries rational-number operations are marked irreducible, which
blocks `decide`'s evaluator (not the kernel) on any concrete ℚ computation.
We restore the default reducibility locally so the concrete runs below can
be settled by `decide`. -/
set_option allowUnsafeReducibility true
attribute [local semireducible] Rat.mul Rat.inv Rat.add Rat.sub Rat.neg Rat.div

namespace MempoolUtil

/-- Result of running an embedded stateful computation: normal result,
Rust panic (`expect` / `assert!` failure), or fuel exhaustion. -/
inductive Res (α : Type) where
  | ok (a : α)
  | panicked
  | noFuel
deriving Repr, DecidableEq

namespace Res

def bind {α β : Type} : Res α → (α → Res β) → Res β
  | ok a, f => f a
  | panicked, _ => panicked
  | noFuel, _ => noFuel

instance : Monad Res where
  pure := ok
  bind := bind

@[simp] theorem bind_ok {α β : Type} (a : α) (f : α → Res β) :
    bind (ok a) f = f a := rfl

@[simp] theorem bind_panicked {α β : Type} (f : α → Res β) :
    bind (panicked : Res α) f = panicked := rfl

@[simp] theorem bind_noFuel {α β : Type} (f : α → Res β) :
    bind (noFuel : Res α) f = noFuel := rfl

end Res

/-- `AuditTx` (src/audittx.rs): transaction metadata used for scoring
packages during selection. -/
structure AuditTx where
  uid : Nat
  order : Nat
  fee : Nat
  weight : Nat
  feerate : ℚ
  parents : List Nat
  ancestors : List Nat
  children : List Nat
  ancestor_fee : Nat
  ancestor_weight : Nat
  score : ℚ
  used : Bool
  modified : Bool
  /-- `none` models `f64::INFINITY`, the initial value. -/
  dependency_rate : Option ℚ
  relatives_set : Bool
deriving Repr, DecidableEq

/-- The audit pool `HashMap<usize, AuditTx>` as an association list. -/
abbrev Pool := List (Nat × AuditTx)

/-- `pool.get(&uid)` -/
def lookupTx : Pool → Nat → Option AuditTx
  | [], _ => none
  | (k, t) :: rest, uid => if k = uid then some t else lookupTx rest uid

/-- `pool.get_mut(&uid)` followed by a field update: the entry (every entry,
if keys were duplicated) with key `uid` is replaced by `f` of itself. -/
def updateTx : Pool → Nat → (AuditTx → AuditTx) → Pool
  | [], _, _ => []
  | (k, t) :: rest, uid, f =>
    (if k = uid then (k, f t) else (k, t)) :: updateTx rest uid f

/-- Keys of the pool, in iteration order. -/
def poolKeys (pool : Pool) : List Nat := pool.map (·.1)

/-- Values of the pool, in iteration order. -/
def poolValues (pool : Pool) : List AuditTx := pool.map (·.2)

/-- `HashSet::insert` on a duplicate-free list. -/
def insertUid (s : List Nat) (x : Nat) : List Nat :=
  if x ∈ s then s else s ++ [x]

/-- `score = fee / (weight / 4)` computed over ℚ (the `f64` formula). -/
def ratScore (fee weight : Nat) : ℚ := (fee : ℚ) / ((weight : ℚ) / 4)

/-- `f64::EPSILON = 2^{-52}`. -/
def EPSILON : ℚ := 1 / 4503599627370496

/-- Total comparison of two rationals, which is what `f64::partial_cmp`
returns on finite doubles. -/
def qcmp (a b : ℚ) : Ordering :=
  if a < b then .lt else if a = b then .eq else .gt

/-- `Nat` comparison written the same way. -/
def ncmp (a b : Nat) : Ordering :=
  if a < b then .lt else if a = b then .eq else .gt

/-- `compare_audit_tx` (src/util.rs lines 81-90): `a` and `b` as
`(score, order, uid)`.  Scores within `f64::EPSILON` of each other are
treated as equal and the comparison falls through to `order`, then `uid`.
Returns `Option Ordering` as the source does; on the rational model the
result is always `some`. -/
def compare_audit_tx : (ℚ × Nat × Nat) → (ℚ × Nat × Nat) → Option Ordering
  | (s₁, o₁, u₁), (s₂, o₂, u₂) =>
    if |s₁ - s₂| > EPSILON then some (qcmp s₁ s₂)
    else if o₁ ≠ o₂ then some (ncmp o₁ o₂)
    else some (ncmp u₁ u₂)

/-- `compare_ancestor_count` (src/util.rs lines 93-104): `a` and `b` as
`(ancestor count, order, uid)`.  NOTE: the first branch is transcribed
exactly as written in the source, which compares `a.2` (the uid) although
its comment says "compare ancestor count". -/
def compare_ancestor_count : (Nat × Nat × Nat) → (Nat × Nat × Nat) → Ordering
  | (c₁, o₁, u₁), (c₂, o₂, u₂) =>
    if c₁ ≠ c₂ then ncmp u₁ u₂
    else if o₁ ≠ o₂ then ncmp o₁ o₂
    else ncmp u₁ u₂

/-- The `(score, order, uid)` key of an `AuditTx` used by its `Ord` impl. -/
def auditKey (t : AuditTx) : ℚ × Nat × Nat := (t.score, t.order, t.uid)

/-- `AuditTx::cmp` = `partial_cmp(..).expect(..)`; on the rational model the
`Option` is always `some`, so the `expect` cannot fire. -/
def auditTxCmp (a b : AuditTx) : Ordering :=
  (compare_audit_tx (auditKey a) (auditKey b)).getD .eq

/-- `TxPriority` (src/audittx.rs): payload of the modified queue. -/
structure TxPriority where
  uid : Nat
  order : Nat
  score : ℚ
deriving Repr, DecidableEq

/-- `TxPriority::cmp`, same total order. -/
def txPriorityCmp (a b : TxPriority) : Ordering :=
  (compare_audit_tx (a.score, a.order, a.uid) (b.score, b.order, b.uid)).getD .eq

/-- Insert into a list sorted ascending w.r.t. `cmp` (goes after equal
elements, making the sort stable). -/
def insertBy {α : Type} (cmp : α → α → Ordering) (x : α) : List α → List α
  | [] => [x]
  | y :: ys =>
    match cmp x y with
    | .lt => x :: y :: ys
    | _ => y :: insertBy cmp x ys

/-- Stable comparison sort.  Rust's `sort` / `sort_unstable_by` agree with it
whenever the comparator is a total preorder on the elements at hand, which
holds for every sort performed on the concrete inputs below (all relevant
keys are pairwise strictly ordered). -/
def sortBy {α : Type} (cmp : α → α → Ordering) : List α → List α
  | [] => []
  | x :: xs => insertBy cmp x (sortBy cmp xs)

/-- `Percent::trunc_three` (src/util.rs lines 41-47): floor after ×1000,
then divide by 1000. -/
def trunc_three (q : ℚ) : ℚ := ((⌊q * 1000⌋ : ℚ)) / 1000

/-- `median_from_sorted` (src/util.rs lines 53-67).  The `assert!` on an
empty sequence becomes `none`. -/
def median_from_sorted (seq : List ℚ) : Option ℚ :=
  if seq.isEmpty then none
  else if seq.length % 2 == 0 then
    let lhs := seq.length / 2 - 1
    let rhs := seq.length / 2
    some (trunc_three ((seq.getD lhs 0 + seq.getD rhs 0) / 2))
  else
    some (trunc_three (seq.getD ((seq.length - 1) / 2) 0))

/-- `target_feerate` (src/util.rs lines 73-78): value at index
`trunc(0.9 * (len-1))` of a sorted sequence; `none` on the empty sequence.
`0.9` is modelled by the rational `9/10`; at every index where this function
is evaluated below the double computation agrees with the rational one. -/
def target_feerate (seq : List ℚ) : Option ℚ :=
  if seq.isEmpty then none
  else
    let i := (⌊(((seq.length - 1 : Nat) : ℚ)) * (9 / 10)⌋).toNat
    some (trunc_three (seq.getD i 0))

/-! ## DAG linking: `set_relatives` (src/blockmk.rs lines 141-188) -/

/-- Sum of ancestor fee/weight over an ancestor uid list, panicking
(`expect("uid exists")`) if an ancestor is not in the pool. -/
def sum_ancestor_data (pool : Pool) : List Nat → Res (Nat × Nat)
  | [] => .ok (0, 0)
  | a :: rest =>
    match lookupTx pool a with
    | none => .panicked
    | some ancestor =>
      (sum_ancestor_data pool rest).bind fun (f, w) =>
        .ok (ancestor.fee + f, ancestor.weight + w)

/-- The `for parent_id in parents` loop of `BlockAssembler::set_relatives`:
for each parent it recurses (`srf` is `set_relatives` at the remaining
fuel), records the child edge, and accumulates the parent and the parent's
ancestors into the local ancestor set. -/
def sr_fold (srf : Pool → Nat → Res Pool) (uid : Nat) :
    List Nat → Pool → List Nat → Res (Pool × List Nat)
  | [], pool, anc => .ok (pool, anc)
  | parent_id :: rest, pool, anc =>
    (srf pool parent_id).bind fun pl' =>
      match lookupTx pl' parent_id with
      | none => .panicked
      | some parent =>
        sr_fold srf uid rest
          (updateTx pl' parent_id
            (fun t => { t with children := insertUid t.children uid }))
          (parent.ancestors.foldl insertUid (insertUid anc parent.uid))

/-- `BlockAssembler::set_relatives`, fueled.  It walks the parents via
`sr_fold`, then sums ancestor data and finalises the node.  `fuel = 0`
yields `.noFuel` (in Rust a cyclic input would recurse forever). -/
def set_relatives : Nat → Pool → Nat → Res Pool
  | 0, _, _ => .noFuel
  | Nat.succ fuel, pool, uid =>
    match lookupTx pool uid with
    | none => .panicked
    | some tx =>
      if tx.relatives_set then .ok pool
      else
        (sr_fold (set_relatives fuel) uid tx.parents pool []).bind
          fun (pool', ancestors) =>
          (sum_ancestor_data pool' ancestors).bind fun (afee, aweight) =>
            .ok (updateTx pool' uid (fun t =>
              { t with
                ancestors := ancestors
                ancestor_fee := t.ancestor_fee + afee
                ancestor_weight := t.ancestor_weight + aweight
                score := ratScore (t.ancestor_fee + afee) (t.ancestor_weight + aweight)
                relatives_set := true }))

/-- `for uid in 0..self.pool.len() { self.set_relatives(uid) }`. -/
def set_relatives_range (fuel : Nat) : Pool → List Nat → Res Pool
  | pool, [] => .ok pool
  | pool, uid :: rest =>
    (set_relatives fuel pool uid).bind fun pool' =>
      set_relatives_range fuel pool' rest

def set_relatives_all (fuel : Nat) (pool : Pool) : Res Pool :=
  set_relatives_range fuel pool (List.range pool.length)

/-! ## The modified queue (crate `priority_queue`)

A `PriorityQueue<usize, TxPriority>` keyed by uid.  Modelled by an
association list; `peek`/`pop` select the maximum priority (priorities of
distinct uids are never equal, because the comparison falls through to the
uid). -/

abbrev MQueue := List (Nat × TxPriority)

/-- `modified.peek()`: the entry with maximal priority (leftmost maximum). -/
def mqPeek (q : MQueue) : Option (Nat × TxPriority) :=
  q.foldl
    (fun best kv =>
      match best with
      | none => some kv
      | some b => if txPriorityCmp kv.2 b.2 == .gt then some kv else some b)
    none

/-- `modified.pop()`: remove the peeked entry. -/
def mqPop (q : MQueue) : MQueue :=
  match mqPeek q with
  | none => q
  | some (uid, _) => q.eraseP (fun kv => kv.1 == uid)

/-- `modified.remove(&uid)`. -/
def mqRemove (q : MQueue) (uid : Nat) : MQueue :=
  q.filter (fun kv => kv.1 != uid)

/-- `modified.push_increase(uid, p)`: insert if absent; if present, raise the
stored priority to `p` when `p` is greater. -/
def mqPushIncrease (q : MQueue) (uid : Nat) (p : TxPriority) : MQueue :=
  match q.find? (fun kv => kv.1 == uid) with
  | none => q ++ [(uid, p)]
  | some (_, old) =>
    if txPriorityCmp p old == .gt then
      q.map (fun kv => if kv.1 == uid then (uid, p) else kv)
    else q

/-- `modified.push_decrease(uid, p)`: insert if absent; if present, lower the
stored priority to `p` when `p` is smaller. -/
def mqPushDecrease (q : MQueue) (uid : Nat) (p : TxPriority) : MQueue :=
  match q.find? (fun kv => kv.1 == uid) with
  | none => q ++ [(uid, p)]
  | some (_, old) =>
    if txPriorityCmp p old == .lt then
      q.map (fun kv => if kv.1 == uid then (uid, p) else kv)
    else q

/-! ## Inventory, block summary, assembler state (src/blockmk.rs) -/

/-- Per-block accumulators (`Inventory`). -/
structure Inventory where
  txn : List Nat
  scores : List ℚ
  failures : Nat
  /-- `none` models the initial `f64::INFINITY`. -/
  lo_score : Option ℚ
  hi_score : ℚ
deriving Repr, DecidableEq

def Inventory.default : Inventory :=
  { txn := [], scores := [], failures := 0, lo_score := none, hi_score := 0 }

/-- Emitted `BlockSummary`.  `fees` is in BTC (`sats / 10^8`); the first
component of `fee_range` is `none` when `lo_score` was still `+∞`. -/
structure BlockSummary where
  height : Option Nat
  txn : List Nat
  tx_count : Nat
  weight : Nat
  failures : Nat
  fees : ℚ
  fee_range : Option ℚ × ℚ
  fee_cutoff : Option ℚ
  median_effective_feerate : Option ℚ
  fee_histogram : Option (List (String × Nat))
deriving Repr, DecidableEq

/-- `BlockAssembler` state (the local `pool_stack` of `generate` is threaded
separately). -/
structure Assembler where
  pool : Pool
  next_height : Nat
  fees : Nat
  weight : Nat
  inv : Inventory
  blocks : List BlockSummary
  modified : MQueue
  overflow : List Nat
deriving Repr, DecidableEq

def MAX_BLOCK_WU : Nat := 4000000
def MAX_FAILURES : Nat := 500
def BLOCK_GOAL : Nat := 2

/-- `BlockAssembler::new` / `from`: fresh accumulators over a given pool
(`weight` seeded with the 4,000-WU coinbase reserve, `next_height = 0`). -/
def Assembler.fromPool (pool : Pool) : Assembler :=
  { pool := pool, next_height := 0, fees := 0, weight := 4000,
    inv := Inventory.default, blocks := [], modified := [], overflow := [] }

/-- `BlockAssembler::clear`. -/
def Assembler.clear (st : Assembler) : Assembler :=
  { st with fees := 0, weight := 4000, inv := Inventory.default,
            next_height := st.next_height + 1 }

/-- `BlockAssembler::is_full`: at 99.9 % of capacity. -/
def Assembler.is_full (st : Assembler) : Bool :=
  st.weight ≥ MAX_BLOCK_WU - MAX_BLOCK_WU / 1000

/-- `BlockAssembler::test_package_fits` (strict less-than). -/
def test_package_fits (st : Assembler) (tx : AuditTx) : Bool :=
  st.weight + tx.ancestor_weight < MAX_BLOCK_WU

/-- `BlockAssembler::histogram_generate`: 12 weight buckets over `score`. -/
def histogram_generate (pool : Pool) : List Nat → Res (List (String × Nat))
  | [] =>
    .ok [("1-2", 0), ("2-3", 0), ("3-4", 0), ("4-5", 0), ("5-10", 0),
         ("10-15", 0), ("15-20", 0), ("20-25", 0), ("25-50", 0),
         ("50-100", 0), ("100-500", 0), ("500+", 0)]
  | uid :: rest =>
    (histogram_generate pool rest).bind fun hist =>
      match lookupTx pool uid with
      | none => .panicked
      | some tx =>
        let idx : Nat :=
          if tx.score < 2 then 0 else if tx.score < 3 then 1
          else if tx.score < 4 then 2 else if tx.score < 5 then 3
          else if tx.score < 10 then 4 else if tx.score < 15 then 5
          else if tx.score < 20 then 6 else if tx.score < 25 then 7
          else if tx.score < 50 then 8 else if tx.score < 100 then 9
          else if tx.score < 500 then 10 else 11
        .ok (hist.mapIdx (fun i b => if i == idx then (b.1, b.2 + tx.weight) else b))

/-- `BlockAssembler::make_block`.  When `is_full` it adds height, histogram,
median and 90th-percentile cutoff (the latter two panic on an empty score
list — this is the unguarded `assert!` in `median_from_sorted` /
`target_feerate`).  The in-place sort of `inv.scores` is unobservable
afterwards (the inventory is cleared on close and dropped at the end), so
the state is returned unchanged. -/
def make_block (st : Assembler) (is_full : Bool) : Res BlockSummary :=
  let txn := st.inv.txn
  let base : BlockSummary :=
    { height := none, txn := txn, tx_count := txn.length, weight := st.weight,
      failures := st.inv.failures, fees := (st.fees : ℚ) / 100000000,
      fee_range := (st.inv.lo_score.map trunc_three, trunc_three st.inv.hi_score),
      fee_cutoff := none, median_effective_feerate := none, fee_histogram := none }
  if is_full then
    (histogram_generate st.pool txn).bind fun hist =>
      let scores := sortBy qcmp st.inv.scores
      match median_from_sorted scores, target_feerate scores with
      | some med, some cut =>
        .ok { base with
                height := some st.next_height
                fee_histogram := some hist
                median_effective_feerate := some med
                fee_cutoff := some cut }
      | _, _ => .panicked
  else
    .ok base

/-! ## Descendant rescoring: `update_descendants` (src/blockmk.rs 426-487) -/

/-- Push each child that is not yet visited onto the descendant stack and the
visited list (`for child in children { if !visited.contains(child) ... }`).
The stack head is the Vec's back, so later pushes pop first. -/
def pushChildren : List Nat → List Nat → List Nat → List Nat × List Nat
  | [], visited, stack => (visited, stack)
  | c :: rest, visited, stack =>
    if c ∈ visited then pushChildren rest visited stack
    else pushChildren rest (visited ++ [c]) (c :: stack)

/-- The new score of a descendant after the root's fee/weight are removed. -/
def rescoredScore (rf rw : Nat) (tx : AuditTx) : ℚ :=
  ratScore (tx.ancestor_fee - rf) (tx.ancestor_weight - rw)

/-- The body of the `if tx.ancestors.remove(&uid)` branch applied to the
descendant record: drop the root from the ancestors, lower the dependency
rate, subtract the root's fee/weight, recompute the score, and set the
`modified` flag when the score changed. -/
def rescored (root : Nat) (eff : ℚ) (rf rw : Nat) (tx : AuditTx) : AuditTx :=
  let new_score := rescoredScore rf rw tx
  let base : AuditTx :=
    { tx with
        ancestors := tx.ancestors.erase root
        dependency_rate :=
          some (match tx.dependency_rate with
                | none => eff
                | some r => min r eff)
        ancestor_fee := tx.ancestor_fee - rf
        ancestor_weight := tx.ancestor_weight - rw
        score := new_score }
  if new_score < tx.score ∨ new_score > tx.score then
    { base with modified := true }
  else base

/-- The matching modified-queue update: decrease-upsert on a score drop,
increase-upsert on a score rise, nothing when the score is unchanged. -/
def rescoredMq (mq : MQueue) (d : Nat) (rf rw : Nat) (tx : AuditTx) : MQueue :=
  let new_score := rescoredScore rf rw tx
  if new_score < tx.score then
    mqPushDecrease mq d { uid := tx.uid, order := tx.order, score := new_score }
  else if new_score > tx.score then
    mqPushIncrease mq d { uid := tx.uid, order := tx.order, score := new_score }
  else mq

theorem rescored_children (root : Nat) (eff : ℚ) (rf rw : Nat) (tx : AuditTx) :
    (rescored root eff rf rw tx).children = tx.children := by
  by_cases h : rescoredScore rf rw tx < tx.score ∨ rescoredScore rf rw tx > tx.score <;>
    simp [rescored, h]

theorem rescored_ancestors (root : Nat) (eff : ℚ) (rf rw : Nat) (tx : AuditTx) :
    (rescored root eff rf rw tx).ancestors = tx.ancestors.erase root := by
  by_cases h : rescoredScore rf rw tx < tx.score ∨ rescoredScore rf rw tx > tx.score <;>
    simp [rescored, h]

theorem rescored_dependency_rate (root : Nat) (eff : ℚ) (rf rw : Nat) (tx : AuditTx) :
    (rescored root eff rf rw tx).dependency_rate =
      some (match tx.dependency_rate with
            | none => eff
            | some r => min r eff) := by
  by_cases h : rescoredScore rf rw tx < tx.score ∨ rescoredScore rf rw tx > tx.score <;>
    simp [rescored, h]

/-- One `while let Some(descendant) = descendant_stack.pop()` loop, fueled.
`root` is the committed ancestor being removed, `eff` the effective feerate,
`rf`/`rw` its fee and weight captured at call entry. -/
def upd_loop (root : Nat) (eff : ℚ) (rf rw : Nat) :
    Nat → Pool → MQueue → List Nat → List Nat → Res (Pool × MQueue)
  | 0, _, _, _, _ => .noFuel
  | Nat.succ fuel, pool, mq, visited, stack =>
    match stack with
    | [] => .ok (pool, mq)
    | d :: rest =>
      match lookupTx pool d with
      | none => .panicked
      | some tx =>
        let vs := pushChildren tx.children visited rest
        if root ∈ tx.ancestors then
          upd_loop root eff rf rw fuel
            (updateTx pool d (fun _ => rescored root eff rf rw tx))
            (rescoredMq mq d rf rw tx) vs.1 vs.2
        else
          upd_loop root eff rf rw fuel pool mq vs.1 vs.2

/-- `BlockAssembler::update_descendants(uid, effective_feerate)`. -/
def update_descendants (fuel : Nat) (pool : Pool) (mq : MQueue)
    (uid : Nat) (eff : ℚ) : Res (Pool × MQueue) :=
  match lookupTx pool uid with
  | none => .panicked
  | some ancestor =>
    let (visited, stack) := pushChildren ancestor.children [] []
    upd_loop uid eff ancestor.fee ancestor.weight fuel pool mq visited stack

/-! ## Candidate dequeue helpers (src/blockmk.rs 501-528) -/

/-- `next_audit_tx`: peek the back of `pool_stack`, popping entries that are
already `used`; the returned transaction (a clone) is left on the stack. -/
def next_audit_tx (pool : Pool) : List Nat → Res (Option AuditTx × List Nat)
  | [] => .ok (none, [])
  | uid :: rest =>
    match lookupTx pool uid with
    | none => .panicked
    | some tx =>
      if tx.used then next_audit_tx pool rest
      else .ok (some tx, uid :: rest)

/-- `next_modified_tx`: peek the top of the modified queue, popping entries
that are already `used`; the returned transaction is left in the queue.
Fueled by the queue length (each recursive call pops one entry). -/
def next_modified_go (pool : Pool) : Nat → MQueue → Res (Option AuditTx × MQueue)
  | 0, _ => .noFuel
  | Nat.succ fuel, mq =>
    match mqPeek mq with
    | none => .ok (none, mq)
    | some (uid, _) =>
      match lookupTx pool uid with
      | none => .panicked
      | some tx =>
        if tx.used then next_modified_go pool fuel (mqPop mq)
        else .ok (some tx, mq)

def next_modified_tx (pool : Pool) (mq : MQueue) : Res (Option AuditTx × MQueue) :=
  next_modified_go pool (mq.length + 1) mq

/-! ## Package commitment: `add_package_tx` (src/blockmk.rs 246-281) -/

/-- Build the `(ancestor count, order, uid)` tuples for the ancestors of the
candidate, removing any `modified` ancestor from the modified queue along
the way.  Panics if an ancestor uid is missing (`expect("uid exists")`). -/
def package_tuples (pool : Pool) (mq : MQueue) :
    List Nat → Res (List (Nat × Nat × Nat) × MQueue)
  | [] => .ok ([], mq)
  | a :: rest =>
    match lookupTx pool a with
    | none => .panicked
    | some ancestor =>
      let mq' := if ancestor.modified then mqRemove mq ancestor.uid else mq
      (package_tuples pool mq' rest).bind fun (tuples, mq'') =>
        .ok ((ancestor.ancestors.length, ancestor.order, ancestor.uid) :: tuples, mq'')

/-- The found-member case of `commit_member`: push onto `inv.txn` if not
yet used, mark used, and add weight/fee/score to the block accumulators. -/
def commit_member_found (st : Assembler) (uid : Nat) (tx : AuditTx) : Assembler :=
  { st with
      pool := updateTx st.pool uid (fun t => { t with used := true })
      weight := st.weight + tx.weight
      fees := st.fees + tx.fee
      inv := { st.inv with
                 txn := if tx.used then st.inv.txn else st.inv.txn ++ [tx.uid]
                 lo_score := some (match st.inv.lo_score with
                                   | none => tx.score
                                   | some lo => min lo tx.score)
                 hi_score := max st.inv.hi_score tx.score
                 scores := st.inv.scores ++ [tx.score] } }

/-- Commit one package member (`if let Some(tx) = self.pool.get_mut(uid)`,
which silently skips a missing uid). -/
def commit_member (st : Assembler) (uid : Nat) : Assembler :=
  match lookupTx st.pool uid with
  | none => st
  | some tx => commit_member_found st uid tx

/-- `BlockAssembler::add_package_tx`: build the package (the candidate and
its ancestors sorted with `compare_ancestor_count`; just the candidate when
it has no ancestors), then commit every member. -/
def add_package_tx (st : Assembler) (tx : AuditTx) : Res (Assembler × List Nat) :=
  (if tx.ancestors.isEmpty then .ok ([tx.uid], st.modified)
   else
     (package_tuples st.pool st.modified tx.ancestors).bind fun (tuples, mq') =>
       let sorted := sortBy compare_ancestor_count
         ((tx.ancestors.length, tx.order, tx.uid) :: tuples)
       .ok (sorted.map (fun t => t.2.2), mq')).bind
  fun (package, mq') =>
    let st' := package.foldl commit_member { st with modified := mq' }
    .ok (st', package)

/-! ## The selection loop and `generate` (src/blockmk.rs 324-423) -/

/-- `for uid in package { ... if !tx.children.is_empty() { update_descendants } }`.
The pool lookup uses `expect`, so a missing uid panics here. -/
def rescore_package (fuel : Nat) (eff : ℚ) :
    Assembler → List Nat → Res Assembler
  | st, [] => .ok st
  | st, uid :: rest =>
    match lookupTx st.pool uid with
    | none => .panicked
    | some tx =>
      if tx.children.isEmpty then rescore_package fuel eff st rest
      else
        (update_descendants fuel st.pool st.modified tx.uid eff).bind
          fun (pool', mq') =>
            rescore_package fuel eff { st with pool := pool', modified := mq' } rest

/-- `while let Some(uid) = self.overflow.pop()`: recycle the overflow after a
block is emitted, routing each still-unused uid back to the modified queue
(if its `modified` flag is set) or the pool stack. -/
def recycle_overflow (st : Assembler) (stack : List Nat) :
    List Nat → Res (Assembler × List Nat)
  | [] => .ok ({ st with overflow := [] }, stack)
  | uid :: rest =>
    match lookupTx st.pool uid with
    | none => .panicked
    | some tx =>
      if tx.used then recycle_overflow st stack rest
      else if tx.modified then
        let mq' := mqPushIncrease st.modified tx.uid
          { uid := tx.uid, order := tx.order, score := tx.score }
        recycle_overflow { st with modified := mq' } stack rest
      else recycle_overflow st (tx.uid :: stack) rest

/-- The `match (&next_tx, &next_modified_tx)` table of `generate`: decide
which candidate to use and pop it from its source (both on a duplicate). -/
def choose_candidate (st₁ : Assembler) (stack₁ : List Nat) :
    Option AuditTx → Option AuditTx → Option (AuditTx × Assembler × List Nat)
  | none, none => none
  | none, some m => some (m, { st₁ with modified := mqPop st₁.modified }, stack₁)
  | some a, none => some (a, st₁, stack₁.tail)
  | some a, some m =>
    match auditTxCmp a m with
    | .eq => some (m, { st₁ with modified := mqPop st₁.modified }, stack₁.tail)
    | .lt => some (m, { st₁ with modified := mqPop st₁.modified }, stack₁)
    | .gt => some (a, st₁, stack₁.tail)

/-- The body of the `while !pool_stack.is_empty() || !self.modified.is_empty()`
loop, fueled on the number of iterations.  Returns the assembler state at
loop exit (both the normal exit and the `(None, None) => break`). -/
def block_loop : Nat → Assembler → List Nat → Res Assembler
  | 0, _, _ => .noFuel
  | Nat.succ fuel, st, stack =>
    if stack.isEmpty && st.modified.isEmpty then .ok st
    else
      (next_audit_tx st.pool stack).bind fun (a?, stack₁) =>
      (next_modified_tx st.pool st.modified).bind fun (m?, mq₁) =>
      let st₁ := { st with modified := mq₁ }
      match choose_candidate st₁ stack₁ a? m? with
      | none => .ok st₁
      | some (tx, st₂, stack₂) =>
        (if test_package_fits st₂ tx || st₂.blocks.length ≥ BLOCK_GOAL then
          (add_package_tx st₂ tx).bind fun (st₃, package) =>
            let eff := match tx.dependency_rate with
                       | none => tx.score
                       | some d => min d tx.score
            (rescore_package fuel eff st₃ package).bind fun st₄ =>
              .ok { st₄ with inv := { st₄.inv with failures := 0 } }
         else
          .ok { st₂ with
                  overflow := tx.uid :: st₂.overflow
                  inv := { st₂.inv with failures := st₂.inv.failures + 1 } }).bind
        fun st₅ =>
          let exceeded := st₅.inv.failures ≥ MAX_FAILURES && st₅.is_full
          let qEmpty := stack₂.isEmpty && st₅.modified.isEmpty
          if (exceeded || qEmpty) && st₅.blocks.length < BLOCK_GOAL then
            (make_block st₅ true).bind fun blk =>
              let st₆ := Assembler.clear { st₅ with blocks := st₅.blocks ++ [blk] }
              (recycle_overflow { st₆ with overflow := [] } stack₂ st₆.overflow).bind
                fun (st₇, stack₃) => block_loop fuel st₇ stack₃
          else block_loop fuel st₅ stack₂

/-- `BlockAssembler::generate`: link all nodes, sort the pool into the uid
stack (ascending priority; the stack head models the Vec back, so the head
is the best-scoring node), run the selection loop, then flush any remaining
inventory into one final unbounded block. -/
def generate (fuel : Nat) (pool : Pool) : Res (List BlockSummary) :=
  (set_relatives_all fuel pool).bind fun pool' =>
    let stack := ((sortBy auditTxCmp (poolValues pool')).map (·.uid)).reverse
    (block_loop fuel (Assembler.fromPool pool') stack).bind fun st =>
      if st.inv.txn.isEmpty then .ok st.blocks
      else
        (make_block st false).bind fun blk =>
          .ok (st.blocks ++ [blk])

/-! ## Test-pool construction (`TestMempoolEntry::into_pool` + `pre_fill`) -/

/-- A pool node as built from a `TestMempoolEntry`: `order = uid`, then
`AuditTx::pre_fill` (src/audittx.rs 52-60). -/
def mkAuditTx (uid fee weight : Nat) (parents : List Nat) : AuditTx :=
  { uid := uid, order := uid, fee := fee, weight := weight,
    feerate := ratScore fee weight,
    parents := parents, ancestors := [], children := [],
    ancestor_fee := fee, ancestor_weight := weight,
    score := ratScore fee weight,
    used := false, modified := false, dependency_rate := none,
    relatives_set := parents.isEmpty }

/-- Projection of a generate result onto the per-block uid lists. -/
def resTxns (r : Res (List BlockSummary)) : Res (List (List Nat)) :=
  r.bind fun bs => .ok (bs.map (·.txn))

/-- Projection of a generate result onto the per-block heights. -/
def resHeights (r : Res (List BlockSummary)) : Res (List (Option Nat)) :=
  r.bind fun bs => .ok (bs.map (·.height))

/-! ## Concrete pools used by the claims -/

/-- Two transactions: uid 0 is a high-fee child whose only parent is uid 1.
The child carries the smaller uid.  (In `TestMempoolEntry` form:
`{uid=0, fee=4000, weight=800, parents={1}}`, `{uid=1, fee=1000, weight=800}`.) -/
def c1Pool : Pool := [(0, mkAuditTx 0 4000 800 [1]), (1, mkAuditTx 1 1000 800 [])]

/-- Three transactions: uid 0 is a cheap parent (score 0.5 sat/vB), uid 2 its
high-fee child (package score 5.0), and uid 1 a huge standalone transaction
(weight 3,996,000 WU, score 1.0) that can never fit next to the coinbase
reserve.  All three scores are exactly representable doubles and pairwise
far apart, so the rational model follows the `f64` comparisons exactly. -/
def c3Pool : Pool :=
  [(0, mkAuditTx 0 100 800 []),
   (1, mkAuditTx 1 999000 3996000 []),
   (2, mkAuditTx 2 1900 800 [0])]

/-- A single transaction whose `4000 + ancestor_weight` reaches
`MAX_BLOCK_WU`, so the fit test never passes. -/
def c4Pool : Pool := [(0, mkAuditTx 0 1000 3996000 [])]

/-- The singleton pool of spec scenario 2:
`{uid=0, fee=1000, weight=840, parents=∅}`. -/
def c7Pool : Pool := [(0, mkAuditTx 0 1000 840 [])]

/-- The block that `generate` actually emits on `c7Pool`: a *full* block
summary (height 0, histogram, median, cutoff all present), produced by the
queue-empty roll condition. -/
def c7Block : BlockSummary :=
  { height := some 0,
    txn := [0],
    tx_count := 1,
    weight := 4840,
    failures := 0,
    fees := 1 / 100000,
    fee_range := (some (4761 / 1000), 4761 / 1000),
    fee_cutoff := some (4761 / 1000),
    median_effective_feerate := some (4761 / 1000),
    fee_histogram := some
      [("1-2", 0), ("2-3", 0), ("3-4", 0), ("4-5", 840), ("5-10", 0),
       ("10-15", 0), ("15-20", 0), ("20-25", 0), ("25-50", 0),
       ("50-100", 0), ("100-500", 0), ("500+", 0)] }

/-! ## Claim theorems -/

/-- C1: the claim that every ancestor of a committed transaction appears in
the same block at an equal-or-lower index FAILS on the code.  On `c1Pool`
uid 1 is the parent (hence an ancestor) of uid 0, yet the single emitted
block commits `[0, 1]`: the descendant at index 0, its ancestor at index 1.
The cause is the first branch of `compare_ancestor_count`, which compares
uids instead of ancestor counts. -/
theorem c1_ancestor_after_descendant :
    resTxns (generate 20 c1Pool) = Res.ok [[0, 1]] ∧
      (lookupTx c1Pool 0).map (·.parents) = some [1] ∧
      ((set_relatives_all 20 c1Pool).bind fun p =>
        Res.ok ((lookupTx p 0).map (·.ancestors))) = Res.ok (some [1]) := by
  refine ⟨by decide, by decide, by decide⟩

/-- C2: the claim that `add_package_tx` sorts the package ascending on
`(ancestor count, order, uid)` FAILS on the code: when the ancestor counts
differ, `compare_ancestor_count` compares the uids (its comment says
"compare ancestor count" but the code reads `a.2`).  The tuple `(1, 0, 0)`
(one ancestor, uid 0) sorts BEFORE `(0, 1, 1)` (zero ancestors, uid 1), so
the member with more ancestors is committed first. -/
theorem c2_ancestor_count_not_compared :
    compare_ancestor_count (1, 0, 0) (0, 1, 1) = Ordering.lt ∧
      sortBy compare_ancestor_count [(1, 0, 0), (0, 1, 1)] =
        [(1, 0, 0), (0, 1, 1)] := by
  refine ⟨by decide, by decide⟩

/-- C3: conservation FAILS on the code.  On `c3Pool` the run commits the
package `[0, 2]`, the oversized uid 1 overflows, and on the next iteration
both queues yield `None` (they hold only used entries), hitting the
`(None, None) => break` arm — which skips the block-close-and-recycle step.
The run completes normally with a single (tail) block `[0, 2]`; uid 1,
although present in the input pool, appears in no emitted block. -/
theorem c3_uid_dropped :
    resTxns (generate 40 c3Pool) = Res.ok [[0, 2]] ∧
      poolKeys c3Pool = [0, 1, 2] ∧ (1 : Nat) ∉ [0, 2] := by
  refine ⟨by decide, by decide, by decide⟩

/-- C4: the claim that `generate` terminates normally (returning blocks)
when no candidate ever fits FAILS on the code.  With a single unfittable
transaction, both queues drain while the inventory is still empty, the
queue-empty roll condition fires `make_block(true)`, and
`median_from_sorted` asserts on the empty score list: the run aborts. -/
theorem c4_unfittable_pool_panics : generate 20 c4Pool = Res.panicked := by
  decide

/-- C7 counterexample: the claim says the singleton pool yields one
*unbounded tail* block with no height; in fact the emitted block carries
`height = some 0` (it is emitted by the queue-empty roll condition as a
full block). -/
theorem c7_counterexample :
    resHeights (generate 20 c7Pool) = Res.ok [some 0] := by
  decide

/-- C7 (amended): on the singleton pool `generate` emits exactly one
`BlockSummary` with `txn = [0]`, but it is a full-block summary — height 0,
fee histogram, median and cutoff all present — not the tail block the claim
describes. -/
theorem c7_singleton_emits_full_block :
    generate 20 c7Pool = Res.ok [c7Block] := by
  decide

/-- C8 counterexample: two priority records whose scores differ by exactly
`f64::EPSILON` (realisable, e.g. fee 0 / weight 800 gives score `0.0` and
fee 1 / weight `2^54` gives score `2^-52`, all exact in `f64`): the first
score is strictly smaller, yet the comparison falls through to `order` and
returns `Greater`. -/
theorem c8_counterexample :
    compare_audit_tx (0, 1, 0) (EPSILON, 0, 1) = some Ordering.gt ∧
      (0 : ℚ) < EPSILON := by
  refine ⟨by decide, by decide⟩

/-- C8 (amended): the priority comparison orders by score only when the
scores differ by more than `f64::EPSILON`; scores within `EPSILON` of each
other are treated as equal, and only then does it fall through to `order`
ascending and then `uid` ascending. -/
theorem c8_epsilon_lexicographic (s₁ s₂ : ℚ) (o₁ u₁ o₂ u₂ : Nat) :
    (s₁ + EPSILON < s₂ →
      compare_audit_tx (s₁, o₁, u₁) (s₂, o₂, u₂) = some Ordering.lt) ∧
    (|s₁ - s₂| ≤ EPSILON → o₁ < o₂ →
      compare_audit_tx (s₁, o₁, u₁) (s₂, o₂, u₂) = some Ordering.lt) ∧
    (|s₁ - s₂| ≤ EPSILON → o₁ = o₂ → u₁ < u₂ →
      compare_audit_tx (s₁, o₁, u₁) (s₂, o₂, u₂) = some Ordering.lt) := by
  have hε : (0 : ℚ) < EPSILON := by norm_num [EPSILON]
  refine ⟨fun hs => ?_, fun hs ho => ?_, fun hs ho hu => ?_⟩
  · have habs : |s₁ - s₂| > EPSILON := by
      rw [abs_sub_comm, abs_of_pos (by linarith)]
      linarith
    have hlt : s₁ < s₂ := by linarith
    simp [compare_audit_tx, habs, qcmp, hlt]
  · have habs : ¬ |s₁ - s₂| > EPSILON := not_lt.mpr hs
    simp [compare_audit_tx, habs, ncmp, Nat.ne_of_lt ho, ho]
  · have habs : ¬ |s₁ - s₂| > EPSILON := not_lt.mpr hs
    simp [compare_audit_tx, habs, ncmp, ho, Nat.ne_of_lt hu, hu]

/-- Witness for `c8_epsilon_lexicographic` at concrete inputs: score 0 vs
score 1 decides on score despite the larger order/uid on the left; equal
scores fall through to order, then uid. -/
theorem c8_epsilon_lexicographic_witness :
    compare_audit_tx (0, 5, 9) (1, 3, 1) = some Ordering.lt ∧
      compare_audit_tx (0, 1, 7) (0, 2, 3) = some Ordering.lt ∧
      compare_audit_tx (0, 2, 3) (0, 2, 8) = some Ordering.lt :=
  ⟨(c8_epsilon_lexicographic 0 1 5 9 3 1).1 (by norm_num [EPSILON]),
   (c8_epsilon_lexicographic 0 0 1 7 2 3).2.1 (by norm_num [EPSILON]) (by decide),
   (c8_epsilon_lexicographic 0 0 2 3 2 8).2.2 (by norm_num [EPSILON]) rfl (by decide)⟩

/-! ## Pool lemmas -/

theorem lookupTx_updateTx_self (pool : Pool) (k : Nat) (f : AuditTx → AuditTx) :
    lookupTx (updateTx pool k f) k = (lookupTx pool k).map f := by
  induction pool with
  | nil => rfl
  | cons kv rest ih =>
    obtain ⟨k', t⟩ := kv
    by_cases h : k' = k
    · subst h
      rw [updateTx, if_pos rfl, lookupTx, lookupTx, if_pos rfl, if_pos rfl]
      rfl
    · rw [updateTx, if_neg h, lookupTx, lookupTx, if_neg h, if_neg h]
      exact ih

theorem lookupTx_updateTx_ne (pool : Pool) (k j : Nat) (f : AuditTx → AuditTx)
    (h : j ≠ k) : lookupTx (updateTx pool k f) j = lookupTx pool j := by
  induction pool with
  | nil => rfl
  | cons kv rest ih =>
    obtain ⟨k', t⟩ := kv
    by_cases hk : k' = k
    · subst hk
      have hkj : k' ≠ j := fun hc => h (hc ▸ rfl)
      rw [updateTx, if_pos rfl, lookupTx, lookupTx, if_neg hkj, if_neg hkj]
      exact ih
    · by_cases hj : k' = j
      · rw [updateTx, if_neg hk, lookupTx, lookupTx, if_pos hj, if_pos hj]
      · rw [updateTx, if_neg hk, lookupTx, lookupTx, if_neg hj, if_neg hj]
        exact ih

/-- A successful lookup exhibits a pool entry. -/
theorem lookupTx_mem (pool : Pool) (k : Nat) (t : AuditTx)
    (h : lookupTx pool k = some t) : (k, t) ∈ pool := by
  induction pool with
  | nil => cases h
  | cons kv rest ih =>
    obtain ⟨k', t'⟩ := kv
    by_cases hk : k' = k
    · subst hk
      simp [lookupTx] at h
      subst h
      exact List.mem_cons_self _ _
    · simp [lookupTx, hk] at h
      exact List.mem_cons_of_mem _ (ih h)

/-- The children structure of the pool, as a partial map. -/
def childrenOf (pool : Pool) (d : Nat) : Option (List Nat) :=
  (lookupTx pool d).map (·.children)

theorem childrenOf_updateTx (pool : Pool) (k : Nat) (f : AuditTx → AuditTx)
    (hf : ∀ t, (f t).children = t.children) (d : Nat) :
    childrenOf (updateTx pool k f) d = childrenOf pool d := by
  by_cases h : d = k
  · subst h
    simp [childrenOf, lookupTx_updateTx_self, Option.map_map]
    cases lookupTx pool d with
    | none => rfl
    | some t => simp [hf]
  · simp [childrenOf, lookupTx_updateTx_ne pool k d f h]

/-! ## C10: termination of the descendant walk -/

/-- All child uids mentioned anywhere in the pool. -/
def allChildren (pool : Pool) : List Nat :=
  (pool.map (fun kv => kv.2.children)).flatten

/-- Fuel that provably suffices for `update_descendants` on a given pool:
one iteration per distinct child uid, plus one. -/
def c10fuel (pool : Pool) : Nat := (allChildren pool).dedup.length + 1

/-- Number of elements of `U` not yet visited. -/
def countNV (U v : List Nat) : Nat :=
  U.countP (fun x => decide (x ∉ v))

theorem countNV_not_mem (U v : List Nat) (c : Nat) (hc : c ∉ U) :
    countNV U (v ++ [c]) = countNV U v := by
  induction U with
  | nil => rfl
  | cons u rest ih =>
    have hu : u ≠ c := fun h => hc (h ▸ List.mem_cons_self u rest)
    have hrest : c ∉ rest := fun h => hc (List.mem_cons_of_mem u h)
    have hmem : decide (u ∉ v ++ [c]) = decide (u ∉ v) := by
      simp [List.mem_append, hu]
    simp only [countNV, List.countP_cons] at ih ⊢
    rw [hmem, ih hrest]

theorem countNV_add (U v : List Nat) (c : Nat) (hU : U.Nodup) (hc : c ∈ U)
    (hv : c ∉ v) : countNV U (v ++ [c]) + 1 = countNV U v := by
  induction U with
  | nil => cases hc
  | cons u rest ih =>
    have hrestnd : rest.Nodup := (List.nodup_cons.mp hU).2
    by_cases hu : u = c
    · subst hu
      have hurest : u ∉ rest := (List.nodup_cons.mp hU).1
      have h₁ : decide (u ∉ v ++ [u]) = false := by simp
      have h₂ : decide (u ∉ v) = true := by simpa using hv
      have h₃ := countNV_not_mem rest v u hurest
      simp only [countNV] at h₃
      simp only [countNV, List.countP_cons, h₁, h₂]
      rw [h₃]
      simp
    · have hcrest : c ∈ rest := by
        cases hc with
        | head => exact absurd rfl hu
        | tail _ h => exact h
      have hmem : decide (u ∉ v ++ [c]) = decide (u ∉ v) := by
        simp [List.mem_append, hu]
      have := ih hrestnd hcrest
      simp only [countNV, List.countP_cons] at this ⊢
      rw [hmem]
      omega

/-- `pushChildren` does not increase the measure `stack length + unvisited
count`, provided every child lies in `U`. -/
theorem pushChildren_measure (U : List Nat) (hU : U.Nodup) :
    ∀ (cs v s : List Nat), (∀ c ∈ cs, c ∈ U) →
      (pushChildren cs v s).2.length + countNV U (pushChildren cs v s).1 ≤
        s.length + countNV U v := by
  intro cs
  induction cs with
  | nil => intro v s _; simp [pushChildren]
  | cons c rest ih =>
    intro v s hmem
    have hc : c ∈ U := hmem c (List.mem_cons_self c rest)
    have hrest : ∀ x ∈ rest, x ∈ U := fun x hx => hmem x (List.mem_cons_of_mem c hx)
    by_cases hcv : c ∈ v
    · rw [pushChildren, if_pos hcv]
      exact ih v s hrest
    · rw [pushChildren, if_neg hcv]
      have h₁ := ih (v ++ [c]) (c :: s) hrest
      have h₂ := countNV_add U v c hU hc hcv
      simp only [List.length_cons] at h₁
      omega

/-- `pushChildren` only grows the visited list. -/
theorem pushChildren_visited_sub (cs : List Nat) :
    ∀ (v s : List Nat), ∀ x ∈ v, x ∈ (pushChildren cs v s).1 := by
  induction cs with
  | nil => intro v s x hx; simpa [pushChildren] using hx
  | cons c rest ih =>
    intro v s x hx
    by_cases hcv : c ∈ v
    · rw [pushChildren, if_pos hcv]; exact ih v s x hx
    · rw [pushChildren, if_neg hcv]
      exact ih (v ++ [c]) (c :: s) x (List.mem_append_left _ hx)

/-- Overwriting an entry with a record that keeps its children preserves the
children structure. -/
theorem updateTx_childrenOf_eq (pool : Pool) (d : Nat) (newtx : AuditTx)
    (h : ∀ t, lookupTx pool d = some t → newtx.children = t.children) :
    ∀ x, childrenOf (updateTx pool d (fun _ => newtx)) x = childrenOf pool x := by
  intro x
  by_cases hx : x = d
  · subst hx
    simp only [childrenOf, lookupTx_updateTx_self, Option.map_map]
    cases hl : lookupTx pool x with
    | none => rfl
    | some t => simp [h t hl]
  · simp [childrenOf, lookupTx_updateTx_ne pool d x _ hx]

/-- Fuel sufficiency for the walk loop: if the measure is below the fuel and
every pool children-list is drawn from `U` (the children structure of the
original pool), the loop never runs out of fuel — it ends with `ok` or a
panic, even on cyclic children graphs. -/
theorem upd_loop_no_fuel_exhaustion (pool₀ : Pool) (root : Nat) (eff : ℚ)
    (rf rw : Nat) :
    ∀ (fuel : Nat) (pool : Pool) (mq : MQueue) (visited stack : List Nat),
      (∀ x, childrenOf pool x = childrenOf pool₀ x) →
      stack.length + countNV (allChildren pool₀).dedup visited < fuel →
      upd_loop root eff rf rw fuel pool mq visited stack ≠ Res.noFuel := by
  intro fuel
  induction fuel with
  | zero => intro pool mq visited stack _ h; omega
  | succ fuel ih =>
    intro pool mq visited stack hch hμ
    set U := (allChildren pool₀).dedup with hUdef
    have hUnd : U.Nodup := List.nodup_dedup _
    match stack with
    | [] => simp [upd_loop]
    | d :: rest =>
      simp only [upd_loop]
      cases hl : lookupTx pool d with
      | none => simp
      | some tx =>
        have hsub : ∀ c ∈ tx.children, c ∈ U := by
          intro c hc
          have h₀ : childrenOf pool₀ d = some tx.children := by
            rw [← hch d]; simp [childrenOf, hl]
          have : ∃ t₀, lookupTx pool₀ d = some t₀ ∧ t₀.children = tx.children := by
            cases hl₀ : lookupTx pool₀ d with
            | none => rw [childrenOf, hl₀] at h₀; cases h₀
            | some t₀ =>
              rw [childrenOf, hl₀] at h₀
              exact ⟨t₀, rfl, by simpa using h₀⟩
          obtain ⟨t₀, hl₀, hceq⟩ := this
          have hmem : c ∈ allChildren pool₀ := by
            have hkvmem := lookupTx_mem pool₀ d t₀ hl₀
            simp only [allChildren, List.mem_flatten]
            exact ⟨t₀.children,
              List.mem_map_of_mem (fun kv => kv.2.children) hkvmem,
              by rw [hceq]; exact hc⟩
          simpa [hUdef] using List.mem_dedup.mpr hmem
        have hmeas := pushChildren_measure U hUnd tx.children visited rest hsub
        have hμ' : (pushChildren tx.children visited rest).2.length +
            countNV U (pushChildren tx.children visited rest).1 < fuel := by
          simp only [List.length_cons] at hμ
          omega
        by_cases hroot : root ∈ tx.ancestors
        · simp only [hroot, if_true]
          apply ih
          · intro x
            rw [updateTx_childrenOf_eq pool d _ ?_ x, hch x]
            intro t hlt
            have ht : tx = t := by
              have := hl.symm.trans hlt
              exact Option.some.inj this
            subst ht
            exact rescored_children root eff rf rw tx
          · exact hμ'
        · simp only [hroot, if_false]
          exact ih pool mq _ _ hch hμ'

/-- C10: `update_descendants` terminates (it never exhausts the fuel
`c10fuel pool`) for every finite pool and every children structure —
including shared diamond descendants and cyclic children links: the visited
list admits each uid at most once, so the walk performs at most one
iteration per distinct child uid. -/
theorem c10_update_descendants_terminates
    (pool : Pool) (mq : MQueue) (uid : Nat) (eff : ℚ) :
    update_descendants (c10fuel pool) pool mq uid eff ≠ Res.noFuel := by
  unfold update_descendants
  cases hl : lookupTx pool uid with
  | none => simp
  | some ancestor =>
    simp only
    apply upd_loop_no_fuel_exhaustion pool uid eff ancestor.fee ancestor.weight
    · intro x; rfl
    · have hsub : ∀ c ∈ ancestor.children, c ∈ (allChildren pool).dedup := by
        intro c hc
        apply List.mem_dedup.mpr
        have hkvmem := lookupTx_mem pool uid ancestor hl
        simp only [allChildren, List.mem_flatten]
        exact ⟨ancestor.children,
          List.mem_map_of_mem (fun kv => kv.2.children) hkvmem, hc⟩
      have := pushChildren_measure (allChildren pool).dedup (List.nodup_dedup _)
        ancestor.children [] [] hsub
      have hc0 : countNV (allChildren pool).dedup [] =
          (allChildren pool).dedup.length := by
        simp [countNV]
      simp only [List.length_nil, hc0] at this
      unfold c10fuel
      omega

/-! ## C6: correctness of the descendant rescoring -/

/-- `d` is a transitive descendant of `root`, reached through children
edges of the given pool. -/
inductive Reaches (pool : Pool) (root : Nat) : Nat → Prop where
  | child {t : AuditTx} {c : Nat} :
      lookupTx pool root = some t → c ∈ t.children → Reaches pool root c
  | step {d c : Nat} {t : AuditTx} :
      Reaches pool root d → lookupTx pool d = some t → c ∈ t.children →
      Reaches pool root c

/-- The dependency rate is finite and bounded by `f`. -/
def depLE (o : Option ℚ) (f : ℚ) : Prop :=
  match o with
  | none => False
  | some q => q ≤ f

/-- Post-state of a processed node: the root is gone from its ancestors and
its dependency rate is at most `f`. -/
def Processed (root : Nat) (f : ℚ) (pool : Pool) (x : Nat) : Prop :=
  ∀ t, lookupTx pool x = some t → root ∉ t.ancestors ∧ depLE t.dependency_rate f

theorem pushChildren_visited_mem (cs : List Nat) :
    ∀ v s x, x ∈ (pushChildren cs v s).1 → x ∈ v ∨ x ∈ cs := by
  induction cs with
  | nil => intro v s x hx; exact Or.inl (by simpa [pushChildren] using hx)
  | cons c rest ih =>
    intro v s x hx
    by_cases hcv : c ∈ v
    · rw [pushChildren, if_pos hcv] at hx
      rcases ih v s x hx with h | h
      · exact Or.inl h
      · exact Or.inr (List.mem_cons_of_mem c h)
    · rw [pushChildren, if_neg hcv] at hx
      rcases ih (v ++ [c]) (c :: s) x hx with h | h
      · rcases List.mem_append.mp h with h' | h'
        · exact Or.inl h'
        · simp at h'
          exact Or.inr (h' ▸ List.mem_cons_self c rest)
      · exact Or.inr (List.mem_cons_of_mem c h)

theorem pushChildren_covers (cs : List Nat) :
    ∀ v s c, c ∈ cs → c ∈ (pushChildren cs v s).1 := by
  induction cs with
  | nil => intro v s c hc; cases hc
  | cons c₀ rest ih =>
    intro v s c hc
    by_cases hcv : c₀ ∈ v
    · rw [pushChildren, if_pos hcv]
      cases hc with
      | head => exact pushChildren_visited_sub rest v s c₀ hcv
      | tail _ h => exact ih v s c h
    · rw [pushChildren, if_neg hcv]
      cases hc with
      | head =>
        exact pushChildren_visited_sub rest (v ++ [c₀]) (c₀ :: s) c₀ (by simp)
      | tail _ h => exact ih (v ++ [c₀]) (c₀ :: s) c h

theorem pushChildren_stack_mono (cs : List Nat) :
    ∀ v s x, x ∈ s → x ∈ (pushChildren cs v s).2 := by
  induction cs with
  | nil => intro v s x hx; simpa [pushChildren] using hx
  | cons c rest ih =>
    intro v s x hx
    by_cases hcv : c ∈ v
    · rw [pushChildren, if_pos hcv]; exact ih v s x hx
    · rw [pushChildren, if_neg hcv]
      exact ih (v ++ [c]) (c :: s) x (List.mem_cons_of_mem c hx)

theorem pushChildren_stack_mem (cs : List Nat) :
    ∀ v s x, x ∈ (pushChildren cs v s).2 → (x ∈ s ∨ x ∉ v) ∧ (x ∈ s ∨ x ∈ cs) := by
  induction cs with
  | nil => intro v s x hx; exact ⟨Or.inl (by simpa [pushChildren] using hx),
      Or.inl (by simpa [pushChildren] using hx)⟩
  | cons c rest ih =>
    intro v s x hx
    by_cases hcv : c ∈ v
    · rw [pushChildren, if_pos hcv] at hx
      rcases ih v s x hx with ⟨h₁, h₂⟩
      exact ⟨h₁, h₂.imp id (List.mem_cons_of_mem c)⟩
    · rw [pushChildren, if_neg hcv] at hx
      rcases ih (v ++ [c]) (c :: s) x hx with ⟨h₁, h₂⟩
      constructor
      · rcases h₁ with h | h
        · cases h with
          | head => exact Or.inr hcv
          | tail _ h' => exact Or.inl h'
        · exact Or.inr (fun hv => h (List.mem_append_left _ hv))
      · rcases h₂ with h | h
        · cases h with
          | head => exact Or.inr (List.mem_cons_self c rest)
          | tail _ h' => exact Or.inl h'
        · exact Or.inr (List.mem_cons_of_mem c h)

theorem pushChildren_stack_sub_visited (cs : List Nat) :
    ∀ v s, (∀ x ∈ s, x ∈ v) →
      ∀ x ∈ (pushChildren cs v s).2, x ∈ (pushChildren cs v s).1 := by
  induction cs with
  | nil => intro v s hsv x hx; exact hsv x (by simpa [pushChildren] using hx)
  | cons c rest ih =>
    intro v s hsv
    by_cases hcv : c ∈ v
    · rw [pushChildren, if_pos hcv]; exact ih v s hsv
    · rw [pushChildren, if_neg hcv]
      refine ih (v ++ [c]) (c :: s) ?_
      intro x hx
      cases hx with
      | head => simp
      | tail _ h => exact List.mem_append_left _ (hsv x h)

theorem pushChildren_nodup (cs : List Nat) :
    ∀ v s, s.Nodup → (∀ x ∈ s, x ∈ v) → (pushChildren cs v s).2.Nodup := by
  induction cs with
  | nil => intro v s hs _; simpa [pushChildren] using hs
  | cons c rest ih =>
    intro v s hs hsv
    by_cases hcv : c ∈ v
    · rw [pushChildren, if_pos hcv]; exact ih v s hs hsv
    · rw [pushChildren, if_neg hcv]
      refine ih (v ++ [c]) (c :: s) ?_ ?_
      · exact List.nodup_cons.mpr ⟨fun hcs => hcv (hsv c hcs), hs⟩
      · intro x hx
        cases hx with
        | head => simp
        | tail _ h => exact List.mem_append_left _ (hsv x h)

theorem pushChildren_new_in_stack (cs : List Nat) :
    ∀ v s x, x ∈ (pushChildren cs v s).1 → x ∈ v ∨ x ∈ (pushChildren cs v s).2 := by
  induction cs with
  | nil => intro v s x hx; exact Or.inl (by simpa [pushChildren] using hx)
  | cons c rest ih =>
    intro v s x hx
    by_cases hcv : c ∈ v
    · rw [pushChildren, if_pos hcv] at hx ⊢
      exact ih v s x hx
    · rw [pushChildren, if_neg hcv] at hx ⊢
      rcases ih (v ++ [c]) (c :: s) x hx with h | h
      · rcases List.mem_append.mp h with h' | h'
        · exact Or.inl h'
        · simp at h'
          subst h'
          exact Or.inr (pushChildren_stack_mono rest (v ++ [x]) (x :: s) x
            (List.mem_cons_self x s))
      · exact Or.inr h

/-- Invariant-carrying specification of the walk loop.  From a state whose
visited list and stack satisfy the DFS invariants, a successful run yields a
final visited set containing the current one, closed under the original
children edges, all of whose members have been processed: the root removed
from their ancestors and their dependency rate bounded by `eff`. -/
theorem upd_loop_spec (pool₀ : Pool) (root : Nat) (eff : ℚ) (rf rw : Nat)
    (hanc : ∀ d, Reaches pool₀ root d → ∀ t, lookupTx pool₀ d = some t →
      root ∈ t.ancestors) :
    ∀ (fuel : Nat) (pool : Pool) (mq : MQueue) (visited stack : List Nat)
      (pool' : Pool) (mq' : MQueue),
      (∀ x, childrenOf pool x = childrenOf pool₀ x) →
      (∀ x ∈ stack, x ∈ visited) →
      stack.Nodup →
      (∀ x ∈ visited, Reaches pool₀ root x) →
      (∀ x, (x ∈ stack ∨ x ∉ visited) → lookupTx pool x = lookupTx pool₀ x) →
      (∀ x ∈ visited, x ∈ stack ∨ Processed root eff pool x) →
      (∀ x ∈ visited, x ∈ stack ∨
        (∀ t, lookupTx pool₀ x = some t → ∀ c ∈ t.children, c ∈ visited)) →
      (∀ x t, lookupTx pool x = some t → t.ancestors.Nodup) →
      upd_loop root eff rf rw fuel pool mq visited stack = .ok (pool', mq') →
      ∃ vF : List Nat,
        (∀ x ∈ visited, x ∈ vF) ∧
        (∀ x ∈ vF, Processed root eff pool' x) ∧
        (∀ x ∈ vF, ∀ t, lookupTx pool₀ x = some t → ∀ c ∈ t.children, c ∈ vF) := by
  intro fuel
  induction fuel with
  | zero =>
    intro pool mq visited stack pool' mq' _ _ _ _ _ _ _ _ hrun
    cases hrun
  | succ fuel ih =>
    intro pool mq visited stack pool' mq' I0 I1 I2 I6 I4 I3 I5 I7 hrun
    cases stack with
    | nil =>
      simp only [upd_loop, Res.ok.injEq, Prod.mk.injEq] at hrun
      obtain ⟨rfl, rfl⟩ := hrun
      refine ⟨visited, fun x hx => hx, ?_, ?_⟩
      · intro x hx
        rcases I3 x hx with h | h
        · cases h
        · exact h
      · intro x hx
        rcases I5 x hx with h | h
        · cases h
        · exact h
    | cons d rest =>
      simp only [upd_loop] at hrun
      cases hl : lookupTx pool d with
      | none => rw [hl] at hrun; cases hrun
      | some tx =>
        rw [hl] at hrun
        simp only [] at hrun
        have hdvis : d ∈ visited := I1 d (List.mem_cons_self d rest)
        have hdrest : d ∉ rest := (List.nodup_cons.mp I2).1
        have hrestnd : rest.Nodup := (List.nodup_cons.mp I2).2
        have hrestvis : ∀ x ∈ rest, x ∈ visited :=
          fun x hx => I1 x (List.mem_cons_of_mem d hx)
        have hl₀ : lookupTx pool₀ d = some tx :=
          (I4 d (Or.inl (List.mem_cons_self d rest))).symm.trans hl
        have hdreach : Reaches pool₀ root d := I6 d hdvis
        have hroot : root ∈ tx.ancestors := hanc d hdreach tx hl₀
        rw [if_pos hroot] at hrun
        set v' := (pushChildren tx.children visited rest).1 with hv'
        set s' := (pushChildren tx.children visited rest).2 with hs'
        set ntx := rescored root eff rf rw tx with hntx
        set pool₂ := updateTx pool d (fun _ => ntx) with hpool₂
        have hvsub : ∀ x ∈ visited, x ∈ v' :=
          fun x hx => pushChildren_visited_sub tx.children visited rest x hx
        have hlookup₂d : lookupTx pool₂ d = some ntx := by
          rw [hpool₂, lookupTx_updateTx_self, hl]
          rfl
        have hlookup₂ne : ∀ x, x ≠ d → lookupTx pool₂ x = lookupTx pool x :=
          fun x hx => lookupTx_updateTx_ne pool d x _ hx
        have hndanc : tx.ancestors.Nodup := I7 d tx hl
        have hprocd : Processed root eff pool₂ d := by
          intro t ht
          rw [hlookup₂d] at ht
          have : ntx = t := Option.some.inj ht
          subst this
          constructor
          · rw [hntx, rescored_ancestors]
            intro hmem
            exact absurd ((List.Nodup.mem_erase_iff hndanc).mp hmem).1 (by simp)
          · rw [hntx, rescored_dependency_rate]
            cases tx.dependency_rate with
            | none => exact le_refl eff
            | some r => exact min_le_right r eff
        -- the new state satisfies every invariant
        have I0' : ∀ x, childrenOf pool₂ x = childrenOf pool₀ x := by
          intro x
          rw [hpool₂, updateTx_childrenOf_eq pool d ntx ?_ x, I0 x]
          intro t ht
          have : tx = t := Option.some.inj (hl.symm.trans ht)
          subst this
          rw [hntx]
          exact rescored_children root eff rf rw tx
        have I1' : ∀ x ∈ s', x ∈ v' :=
          pushChildren_stack_sub_visited tx.children visited rest hrestvis
        have I2' : s'.Nodup :=
          pushChildren_nodup tx.children visited rest hrestnd hrestvis
        have I6' : ∀ x ∈ v', Reaches pool₀ root x := by
          intro x hx
          rcases pushChildren_visited_mem tx.children visited rest x hx with h | h
          · exact I6 x h
          · exact Reaches.step hdreach hl₀ h
        have hxne_d : ∀ x, x ∈ s' ∨ x ∉ v' → x ≠ d := by
          intro x hx
          rcases hx with h | h
          · rcases (pushChildren_stack_mem tx.children visited rest x h).1 with h' | h'
            · exact fun he => hdrest (he ▸ h')
            · exact fun he => h' (he ▸ hdvis)
          · exact fun he => h (he ▸ hvsub d hdvis)
        have I4' : ∀ x, (x ∈ s' ∨ x ∉ v') → lookupTx pool₂ x = lookupTx pool₀ x := by
          intro x hx
          rw [hlookup₂ne x (hxne_d x hx)]
          apply I4
          rcases hx with h | h
          · rcases (pushChildren_stack_mem tx.children visited rest x h).1 with h' | h'
            · exact Or.inl (List.mem_cons_of_mem d h')
            · exact Or.inr h'
          · exact Or.inr (fun hv => h (hvsub x hv))
        have I3' : ∀ x ∈ v', x ∈ s' ∨ Processed root eff pool₂ x := by
          intro x hx
          by_cases hxd : x = d
          · subst hxd
            exact Or.inr hprocd
          · rcases pushChildren_new_in_stack tx.children visited rest x hx with h | h
            · rcases I3 x h with h' | h'
              · cases h' with
                | head => exact absurd rfl hxd
                | tail _ h'' =>
                  exact Or.inl (pushChildren_stack_mono tx.children visited rest x h'')
              · refine Or.inr ?_
                intro t ht
                rw [hlookup₂ne x hxd] at ht
                exact h' t ht
            · exact Or.inl h
        have I5' : ∀ x ∈ v', x ∈ s' ∨
            (∀ t, lookupTx pool₀ x = some t → ∀ c ∈ t.children, c ∈ v') := by
          intro x hx
          by_cases hxd : x = d
          · subst hxd
            refine Or.inr ?_
            intro t ht c hc
            have : tx = t := Option.some.inj (hl₀.symm.trans ht)
            subst this
            exact pushChildren_covers tx.children visited rest c hc
          · rcases pushChildren_new_in_stack tx.children visited rest x hx with h | h
            · rcases I5 x h with h' | h'
              · cases h' with
                | head => exact absurd rfl hxd
                | tail _ h'' =>
                  exact Or.inl (pushChildren_stack_mono tx.children visited rest x h'')
              · exact Or.inr (fun t ht c hc => hvsub c (h' t ht c hc))
            · exact Or.inl h
        have I7' : ∀ x t, lookupTx pool₂ x = some t → t.ancestors.Nodup := by
          intro x t ht
          by_cases hxd : x = d
          · subst hxd
            rw [hlookup₂d] at ht
            have : ntx = t := Option.some.inj ht
            subst this
            rw [hntx, rescored_ancestors]
            exact List.Nodup.erase root hndanc
          · rw [hlookup₂ne x hxd] at ht
            exact I7 x t ht
        obtain ⟨vF, hsub, hproc, hclosed⟩ :=
          ih pool₂ (rescoredMq mq d rf rw tx) v' s' pool' mq'
            I0' I1' I2' I6' I4' I3' I5' I7' hrun
        exact ⟨vF, fun x hx => hsub x (hvsub x hx), hproc, hclosed⟩

/-- C6: immediately after a successful `update_descendants(u, f)` on a pool
whose ancestor sets are duplicate-free and in which every transitive
descendant of `u` (through children edges) still lists `u` among its
ancestors — the state in which the assembler always calls it — no
descendant of `u` lists `u` any more, and every descendant's
`dependency_rate` is finite and at most `f`. -/
theorem c6_update_descendants_rescoring
    (fuel : Nat) (pool : Pool) (mq : MQueue) (uid : Nat) (f : ℚ)
    (pool' : Pool) (mq' : MQueue)
    (hnd : ∀ x t, lookupTx pool x = some t → t.ancestors.Nodup)
    (hanc : ∀ d, Reaches pool uid d → ∀ t, lookupTx pool d = some t →
      uid ∈ t.ancestors)
    (hrun : update_descendants fuel pool mq uid f = .ok (pool', mq')) :
    ∀ d, Reaches pool uid d → ∀ t', lookupTx pool' d = some t' →
      uid ∉ t'.ancestors ∧ depLE t'.dependency_rate f := by
  unfold update_descendants at hrun
  cases hl : lookupTx pool uid with
  | none => rw [hl] at hrun; cases hrun
  | some ancestor =>
    rw [hl] at hrun
    simp only [] at hrun
    have hI1 : ∀ x ∈ (pushChildren ancestor.children [] []).2,
        x ∈ (pushChildren ancestor.children [] []).1 :=
      pushChildren_stack_sub_visited ancestor.children [] []
        (by intro x hx; cases hx)
    have hI2 : (pushChildren ancestor.children [] []).2.Nodup :=
      pushChildren_nodup ancestor.children [] [] List.nodup_nil
        (by intro x hx; cases hx)
    have hI6 : ∀ x ∈ (pushChildren ancestor.children [] []).1,
        Reaches pool uid x := by
      intro x hx
      rcases pushChildren_visited_mem ancestor.children [] [] x hx with h | h
      · cases h
      · exact Reaches.child hl h
    have hI3 : ∀ x ∈ (pushChildren ancestor.children [] []).1,
        x ∈ (pushChildren ancestor.children [] []).2 ∨
          Processed uid f pool x := by
      intro x hx
      rcases pushChildren_new_in_stack ancestor.children [] [] x hx with h | h
      · cases h
      · exact Or.inl h
    have hI5 : ∀ x ∈ (pushChildren ancestor.children [] []).1,
        x ∈ (pushChildren ancestor.children [] []).2 ∨
          (∀ t, lookupTx pool x = some t → ∀ c ∈ t.children,
            c ∈ (pushChildren ancestor.children [] []).1) := by
      intro x hx
      rcases pushChildren_new_in_stack ancestor.children [] [] x hx with h | h
      · cases h
      · exact Or.inl h
    obtain ⟨vF, hsub, hproc, hclosed⟩ :=
      upd_loop_spec pool uid f ancestor.fee ancestor.weight hanc fuel pool mq
        (pushChildren ancestor.children [] []).1
        (pushChildren ancestor.children [] []).2 pool' mq'
        (fun _ => rfl) hI1 hI2 hI6 (fun _ _ => rfl) hI3 hI5 hnd hrun
    have hreach_vF : ∀ d, Reaches pool uid d → d ∈ vF := by
      intro d hd
      induction hd with
      | child ht hc =>
        rename_i t c
        have : ancestor = t := Option.some.inj (hl.symm.trans ht)
        subst this
        exact hsub _ (pushChildren_covers ancestor.children [] [] _ hc)
      | step hd ht hc ihd =>
        exact hclosed _ ihd _ ht _ hc
    intro d hd t' ht'
    exact hproc d (hreach_vF d hd) t' ht'

/-! The witness pool: the linked chain A(0, fee 1000) → P(1, fee 2000) →
C(2, fee 4000), each of weight 800, exactly as produced by
`set_relatives_all` (see `c6Pool_is_linked`) — the scenario of the
`test_update_descendants` unit test. -/

def c6A : AuditTx :=
  { uid := 0, order := 0, fee := 1000, weight := 800, feerate := 5,
    parents := [], ancestors := [], children := [1],
    ancestor_fee := 1000, ancestor_weight := 800, score := 5,
    used := false, modified := false, dependency_rate := none,
    relatives_set := true }

def c6P : AuditTx :=
  { uid := 1, order := 1, fee := 2000, weight := 800, feerate := 10,
    parents := [0], ancestors := [0], children := [2],
    ancestor_fee := 3000, ancestor_weight := 1600, score := 15 / 2,
    used := false, modified := false, dependency_rate := none,
    relatives_set := true }

def c6C : AuditTx :=
  { uid := 2, order := 2, fee := 4000, weight := 800, feerate := 20,
    parents := [1], ancestors := [1, 0], children := [],
    ancestor_fee := 7000, ancestor_weight := 2400, score := 35 / 3,
    used := false, modified := false, dependency_rate := none,
    relatives_set := true }

def c6Pool : Pool := [(0, c6A), (1, c6P), (2, c6C)]

/-- `c6Pool` is exactly the pool the linking step produces on the raw
three-transaction chain. -/
theorem c6Pool_is_linked :
    set_relatives_all 10
      [(0, mkAuditTx 0 1000 800 []), (1, mkAuditTx 1 2000 800 [0]),
       (2, mkAuditTx 2 4000 800 [1])] = Res.ok c6Pool := by
  decide

/-- The pool after `update_descendants 10 c6Pool [] 0 5`. -/
def c6AfterPool : Pool :=
  match update_descendants 10 c6Pool [] 0 5 with
  | .ok pm => pm.1
  | _ => []

/-- The modified queue after `update_descendants 10 c6Pool [] 0 5`. -/
def c6AfterMq : MQueue :=
  match update_descendants 10 c6Pool [] 0 5 with
  | .ok pm => pm.2
  | _ => []

/-- The grandchild's record after the walk. -/
def c6T2 : AuditTx := (lookupTx c6AfterPool 2).getD c6A

/-- Witness for `c6_update_descendants_rescoring`: on the linked chain,
after `update_descendants(0, 5)`, the grandchild (uid 2) no longer lists 0
among its ancestors and its dependency rate is bounded by 5. -/
theorem c6_update_descendants_rescoring_witness :
    0 ∉ c6T2.ancestors ∧ depLE c6T2.dependency_rate 5 :=
  c6_update_descendants_rescoring 10 c6Pool [] 0 5 c6AfterPool c6AfterMq
    (by
      intro x t h
      have hm := lookupTx_mem c6Pool x t h
      simp only [c6Pool, List.mem_cons, List.mem_singleton, Prod.mk.injEq,
        List.not_mem_nil, or_false] at hm
      rcases hm with ⟨rfl, rfl⟩ | ⟨rfl, rfl⟩ | ⟨rfl, rfl⟩ <;> decide)
    (by
      have hchar : ∀ d, Reaches c6Pool 0 d → d = 1 ∨ d = 2 := by
        intro d hd
        induction hd with
        | child ht hc =>
          rename_i t c
          have h0 : c6A = t :=
            Option.some.inj ((show lookupTx c6Pool 0 = some c6A by decide).symm.trans ht)
          subst h0
          rw [show c6A.children = [1] from rfl] at hc
          simp at hc
          exact Or.inl hc
        | step hd ht hc ihd =>
          rename_i d₀ c t
          rcases ihd with rfl | rfl
          · have h1 : c6P = t :=
              Option.some.inj ((show lookupTx c6Pool 1 = some c6P by decide).symm.trans ht)
            subst h1
            rw [show c6P.children = [2] from rfl] at hc
            simp at hc
            exact Or.inr hc
          · have h2 : c6C = t :=
              Option.some.inj ((show lookupTx c6Pool 2 = some c6C by decide).symm.trans ht)
            subst h2
            rw [show c6C.children = ([] : List Nat) from rfl] at hc
            cases hc
      intro d hd t ht
      rcases hchar d hd with rfl | rfl
      · have h1 : c6P = t :=
          Option.some.inj ((show lookupTx c6Pool 1 = some c6P by decide).symm.trans ht)
        subst h1
        decide
      · have h2 : c6C = t :=
          Option.some.inj ((show lookupTx c6Pool 2 = some c6C by decide).symm.trans ht)
        subst h2
        decide)
    (by decide)
    2
    (Reaches.step (d := 1) (t := c6P)
      (Reaches.child (t := c6A) (by decide) (by decide)) (by decide) (by decide))
    c6T2
    (by decide)

/-! ## C5: the weight budget of full blocks

The development below proves that every block emitted with `is_full = true`
respects `MAX_BLOCK_WU`.  The key accounting invariant, `WFPool`, states
that every node's `ancestor_weight` equals its own weight plus the weights
of its listed ancestors; it is established by the linking pass on any fresh,
rank-ordered (i.e. acyclic) input pool and preserved by every mutation the
selection loop performs. -/

theorem mem_insertUid (s : List Nat) (x y : Nat) :
    y ∈ insertUid s x ↔ y ∈ s ∨ y = x := by
  unfold insertUid
  by_cases h : x ∈ s
  · simp only [if_pos h]
    constructor
    · exact Or.inl
    · rintro (hy | rfl)
      · exact hy
      · exact h
  · simp [if_neg h, List.mem_append]

theorem insertUid_nodup (s : List Nat) (x : Nat) (h : s.Nodup) :
    (insertUid s x).Nodup := by
  unfold insertUid
  by_cases hx : x ∈ s
  · simpa [if_pos hx] using h
  · simp only [if_neg hx]
    exact List.Nodup.append h (List.nodup_singleton x)
      (by intro a ha hb; simp at hb; exact hx (hb ▸ ha))

theorem foldl_insertUid_mem (l : List Nat) :
    ∀ (acc : List Nat) (y : Nat), y ∈ l.foldl insertUid acc ↔ y ∈ acc ∨ y ∈ l := by
  induction l with
  | nil => intro acc y; simp
  | cons a rest ih =>
    intro acc y
    rw [List.foldl_cons, ih]
    rw [mem_insertUid]
    constructor
    · rintro ((hy | rfl) | hy)
      · exact Or.inl hy
      · exact Or.inr (List.mem_cons_self _ _)
      · exact Or.inr (List.mem_cons_of_mem _ hy)
    · rintro (hy | hy)
      · exact Or.inl (Or.inl hy)
      · cases hy with
        | head => exact Or.inl (Or.inr rfl)
        | tail _ h => exact Or.inr h

theorem foldl_insertUid_nodup (l : List Nat) :
    ∀ acc : List Nat, acc.Nodup → (l.foldl insertUid acc).Nodup := by
  induction l with
  | nil => intro acc h; simpa using h
  | cons a rest ih =>
    intro acc h
    exact ih (insertUid acc a) (insertUid_nodup acc a h)

theorem insertBy_perm {α : Type} (cmp : α → α → Ordering) (x : α) (l : List α) :
    (insertBy cmp x l).Perm (x :: l) := by
  induction l with
  | nil => simp [insertBy]
  | cons y ys ih =>
    unfold insertBy
    cases cmp x y with
    | lt => exact List.Perm.refl _
    | eq => exact ((ih.cons y).trans (List.Perm.swap x y ys))
    | gt => exact ((ih.cons y).trans (List.Perm.swap x y ys))

theorem sortBy_perm {α : Type} (cmp : α → α → Ordering) (l : List α) :
    (sortBy cmp l).Perm l := by
  induction l with
  | nil => exact List.Perm.refl _
  | cons x xs ih =>
    exact (insertBy_perm cmp x (sortBy cmp xs)).trans (ih.cons x)

/-- The weight recorded in the pool for uid `a` (0 if absent — a missing
member contributes nothing to the committed weight either). -/
def wtOf (pool : Pool) (a : Nat) : Nat :=
  ((lookupTx pool a).map (·.weight)).getD 0

/-- Sum of pool weights over a uid list. -/
def ancWeightSum (pool : Pool) (l : List Nat) : Nat :=
  (l.map (wtOf pool)).sum

/-- The pool well-formedness invariant for the weight budget: every record's
uid field matches its key, parents and ancestors point downwards in `rank`
(acyclicity), ancestor lists are duplicate-free and point at pool keys, the
ancestor weight aggregate is exactly own weight plus the weights of the
listed ancestors, and an unlinked node has no ancestors yet. -/
def WFPool (rank : Nat → Nat) (pool : Pool) : Prop :=
  ∀ k t, lookupTx pool k = some t →
    t.uid = k ∧
    (∀ p ∈ t.parents, rank p < rank k) ∧
    t.ancestors.Nodup ∧
    (∀ a ∈ t.ancestors, (lookupTx pool a).isSome = true ∧ rank a < rank k) ∧
    t.ancestor_weight = t.weight + ancWeightSum pool t.ancestors ∧
    (t.relatives_set = false → t.ancestors = [])

/-- A fresh pool: exactly the state `into_pool` + `pre_fill` produce. -/
def freshPool (pool : Pool) : Bool :=
  pool.all fun kv =>
    kv.2.uid == kv.1 && kv.2.ancestors.isEmpty && kv.2.children.isEmpty &&
    !kv.2.used && !kv.2.modified &&
    (kv.2.relatives_set == kv.2.parents.isEmpty) &&
    kv.2.ancestor_fee == kv.2.fee && kv.2.ancestor_weight == kv.2.weight &&
    decide (kv.2.dependency_rate = none)

/-- The input parent graph is ranked (hence acyclic): every parent edge
goes strictly down in `rank`. -/
def rankedParents (rank : Nat → Nat) (pool : Pool) : Bool :=
  pool.all fun kv => kv.2.parents.all fun p => decide (rank p < rank kv.1)

theorem freshPool_WF (pool : Pool) (rank : Nat → Nat)
    (hfresh : freshPool pool = true) (hrank : rankedParents rank pool = true) :
    WFPool rank pool := by
  intro k t hl
  have hmem := lookupTx_mem pool k t hl
  have hf := (List.all_eq_true.mp hfresh) _ hmem
  have hr := (List.all_eq_true.mp hrank) _ hmem
  simp only [Bool.and_eq_true, beq_iff_eq, Bool.not_eq_true',
    List.isEmpty_iff, decide_eq_true_eq] at hf
  obtain ⟨⟨⟨⟨⟨⟨⟨⟨huid, hanc⟩, _⟩, _⟩, _⟩, _⟩, _⟩, haw⟩, _⟩ := hf
  refine ⟨huid, ?_, ?_, ?_, ?_, ?_⟩
  · intro p hp
    have := (List.all_eq_true.mp hr) _ hp
    simpa using this
  · rw [hanc]; exact List.nodup_nil
  · intro a ha; rw [hanc] at ha; cases ha
  · rw [hanc, haw]; simp [ancWeightSum]
  · intro _; exact hanc

theorem lookupTx_updateTx_isSome (pool : Pool) (k j : Nat) (f : AuditTx → AuditTx) :
    (lookupTx (updateTx pool k f) j).isSome = (lookupTx pool j).isSome := by
  by_cases h : j = k
  · subst h
    rw [lookupTx_updateTx_self]
    cases lookupTx pool j <;> rfl
  · rw [lookupTx_updateTx_ne pool k j f h]

theorem wtOf_updateTx (pool : Pool) (k : Nat) (f : AuditTx → AuditTx)
    (hf : ∀ t, lookupTx pool k = some t → (f t).weight = t.weight) (j : Nat) :
    wtOf (updateTx pool k f) j = wtOf pool j := by
  by_cases h : j = k
  · subst h
    unfold wtOf
    rw [lookupTx_updateTx_self]
    cases hl : lookupTx pool j with
    | none => rfl
    | some t => simp [hf t hl]
  · unfold wtOf
    rw [lookupTx_updateTx_ne pool k j f h]

theorem ancWeightSum_congr (pool pool' : Pool) (l : List Nat)
    (h : ∀ a, wtOf pool' a = wtOf pool a) :
    ancWeightSum pool' l = ancWeightSum pool l := by
  unfold ancWeightSum
  induction l with
  | nil => rfl
  | cons a rest ih => simp [List.map_cons, h a, ih]

theorem sum_erase_of_mem (l : List Nat) (f : Nat → Nat) (a : Nat) (ha : a ∈ l) :
    (l.map f).sum = f a + ((l.erase a).map f).sum := by
  have hperm := List.perm_cons_erase ha
  rw [List.Perm.sum_eq (hperm.map f)]
  simp

/-- A field update that keeps uid, parents, ancestors, ancestor weight, own
weight and the linked flag preserves `WFPool`. -/
theorem WFPool_updateTx (rank : Nat → Nat) (pool : Pool) (k : Nat)
    (f : AuditTx → AuditTx) (hWF : WFPool rank pool)
    (hf : ∀ t, lookupTx pool k = some t →
      (f t).uid = t.uid ∧ (f t).parents = t.parents ∧
      (f t).ancestors = t.ancestors ∧ (f t).ancestor_weight = t.ancestor_weight ∧
      (f t).weight = t.weight ∧ (f t).relatives_set = t.relatives_set) :
    WFPool rank (updateTx pool k f) := by
  intro j t hl
  have hwt : ∀ a, wtOf (updateTx pool k f) a = wtOf pool a :=
    wtOf_updateTx pool k f (fun t ht => ((hf t ht).2.2.2.2.1))
  by_cases h : j = k
  · subst h
    rw [lookupTx_updateTx_self] at hl
    cases hlo : lookupTx pool j with
    | none => rw [hlo] at hl; cases hl
    | some t₀ =>
      rw [hlo] at hl
      have hft : f t₀ = t := Option.some.inj hl
      obtain ⟨w1, w2, w3, w4, w5, w6⟩ := hWF j t₀ hlo
      obtain ⟨f1, f2, f3, f4, f5, f6⟩ := hf t₀ hlo
      subst hft
      refine ⟨f1.trans w1, ?_, ?_, ?_, ?_, ?_⟩
      · rw [f2]; exact w2
      · rw [f3]; exact w3
      · rw [f3]
        intro a ha
        exact ⟨(lookupTx_updateTx_isSome pool _ a f).trans (w4 a ha).1,
          (w4 a ha).2⟩
      · rw [f4, f5, f3, ancWeightSum_congr pool _ _ hwt]
        exact w5
      · rw [f6, f3]; exact w6
  · rw [lookupTx_updateTx_ne pool k j f h] at hl
    obtain ⟨w1, w2, w3, w4, w5, w6⟩ := hWF j t hl
    refine ⟨w1, w2, w3, ?_, ?_, w6⟩
    · intro a ha
      exact ⟨(lookupTx_updateTx_isSome pool _ a f).trans (w4 a ha).1, (w4 a ha).2⟩
    · rw [ancWeightSum_congr pool _ _ hwt]
      exact w5

theorem rescored_uid (root : Nat) (eff : ℚ) (rf rw : Nat) (tx : AuditTx) :
    (rescored root eff rf rw tx).uid = tx.uid := by
  by_cases h : rescoredScore rf rw tx < tx.score ∨ rescoredScore rf rw tx > tx.score <;>
    simp [rescored, h]

theorem rescored_parents (root : Nat) (eff : ℚ) (rf rw : Nat) (tx : AuditTx) :
    (rescored root eff rf rw tx).parents = tx.parents := by
  by_cases h : rescoredScore rf rw tx < tx.score ∨ rescoredScore rf rw tx > tx.score <;>
    simp [rescored, h]

theorem rescored_weight (root : Nat) (eff : ℚ) (rf rw : Nat) (tx : AuditTx) :
    (rescored root eff rf rw tx).weight = tx.weight := by
  by_cases h : rescoredScore rf rw tx < tx.score ∨ rescoredScore rf rw tx > tx.score <;>
    simp [rescored, h]

theorem rescored_relatives_set (root : Nat) (eff : ℚ) (rf rw : Nat) (tx : AuditTx) :
    (rescored root eff rf rw tx).relatives_set = tx.relatives_set := by
  by_cases h : rescoredScore rf rw tx < tx.score ∨ rescoredScore rf rw tx > tx.score <;>
    simp [rescored, h]

theorem rescored_ancestor_weight (root : Nat) (eff : ℚ) (rf rw : Nat) (tx : AuditTx) :
    (rescored root eff rf rw tx).ancestor_weight = tx.ancestor_weight - rw := by
  by_cases h : rescoredScore rf rw tx < tx.score ∨ rescoredScore rf rw tx > tx.score <;>
    simp [rescored, h]

/-- The walk preserves the accounting invariant: removing the root from a
descendant's ancestor list and subtracting the root's weight keep
`ancestor_weight = weight + Σ ancestors` in balance. -/
theorem upd_loop_WF (rank : Nat → Nat) (root : Nat) (eff : ℚ) (rf rw : Nat) :
    ∀ (fuel : Nat) (pool : Pool) (mq : MQueue) (visited stack : List Nat)
      (pool' : Pool) (mq' : MQueue),
      WFPool rank pool →
      rw = wtOf pool root →
      upd_loop root eff rf rw fuel pool mq visited stack = .ok (pool', mq') →
      WFPool rank pool' ∧ (∀ a, wtOf pool' a = wtOf pool a) ∧
        (∀ a, (lookupTx pool' a).isSome = (lookupTx pool a).isSome) := by
  intro fuel
  induction fuel with
  | zero => intro pool mq visited stack pool' mq' _ _ hrun; cases hrun
  | succ fuel ih =>
    intro pool mq visited stack pool' mq' hWF hrw hrun
    cases stack with
    | nil =>
      simp only [upd_loop, Res.ok.injEq, Prod.mk.injEq] at hrun
      obtain ⟨rfl, rfl⟩ := hrun
      exact ⟨hWF, fun _ => rfl, fun _ => rfl⟩
    | cons d rest =>
      simp only [upd_loop] at hrun
      cases hl : lookupTx pool d with
      | none => rw [hl] at hrun; cases hrun
      | some tx =>
        rw [hl] at hrun
        simp only [] at hrun
        by_cases hroot : root ∈ tx.ancestors
        · rw [if_pos hroot] at hrun
          obtain ⟨w1, w2, w3, w4, w5, w6⟩ := hWF d tx hl
          have hwt₂ : ∀ a, wtOf (updateTx pool d (fun _ => rescored root eff rf rw tx)) a =
              wtOf pool a := by
            refine wtOf_updateTx pool d _ ?_
            intro t ht
            have : tx = t := Option.some.inj (hl.symm.trans ht)
            subst this
            exact rescored_weight root eff rf rw tx
          have hsome₂ : ∀ a,
              (lookupTx (updateTx pool d (fun _ => rescored root eff rf rw tx)) a).isSome =
                (lookupTx pool a).isSome :=
            fun a => lookupTx_updateTx_isSome pool d a _
          have hWF₂ : WFPool rank (updateTx pool d (fun _ => rescored root eff rf rw tx)) := by
            intro j t hlj
            by_cases hjd : j = d
            · subst hjd
              rw [lookupTx_updateTx_self, hl] at hlj
              have ht : rescored root eff rf rw tx = t := Option.some.inj hlj
              subst ht
              refine ⟨(rescored_uid root eff rf rw tx).trans w1, ?_, ?_, ?_, ?_, ?_⟩
              · rw [rescored_parents]; exact w2
              · rw [rescored_ancestors]; exact List.Nodup.erase root w3
              · rw [rescored_ancestors]
                intro a ha
                have ha' : a ∈ tx.ancestors := List.mem_of_mem_erase ha
                exact ⟨(hsome₂ a).trans (w4 a ha').1, (w4 a ha').2⟩
              · rw [rescored_ancestor_weight, rescored_ancestors, rescored_weight,
                  ancWeightSum_congr pool _ _ hwt₂]
                have hsum : ancWeightSum pool tx.ancestors =
                    wtOf pool root + ancWeightSum pool (tx.ancestors.erase root) :=
                  sum_erase_of_mem tx.ancestors (wtOf pool) root hroot
                rw [w5, hsum, ← hrw]
                omega
              · rw [rescored_relatives_set, rescored_ancestors]
                intro hfalse
                exact absurd (w6 hfalse ▸ hroot) (List.not_mem_nil root)
            · rw [lookupTx_updateTx_ne pool d j _ hjd] at hlj
              obtain ⟨v1, v2, v3, v4, v5, v6⟩ := hWF j t hlj
              refine ⟨v1, v2, v3, ?_, ?_, v6⟩
              · intro a ha
                exact ⟨(hsome₂ a).trans (v4 a ha).1, (v4 a ha).2⟩
              · rw [ancWeightSum_congr pool _ _ hwt₂]
                exact v5
          obtain ⟨hWF', hwt', hsome'⟩ :=
            ih _ _ _ _ pool' mq' hWF₂ (hrw.trans (hwt₂ root).symm) hrun
          exact ⟨hWF', fun a => (hwt' a).trans (hwt₂ a),
            fun a => (hsome' a).trans (hsome₂ a)⟩
        · rw [if_neg hroot] at hrun
          exact ih _ _ _ _ pool' mq' hWF hrw hrun

/-- `update_descendants` preserves the accounting invariant and the weight
and key structure of the pool. -/
theorem update_descendants_WF (rank : Nat → Nat) (fuel : Nat) (pool : Pool)
    (mq : MQueue) (uid : Nat) (eff : ℚ) (pool' : Pool) (mq' : MQueue)
    (hWF : WFPool rank pool)
    (hrun : update_descendants fuel pool mq uid eff = .ok (pool', mq')) :
    WFPool rank pool' ∧ (∀ a, wtOf pool' a = wtOf pool a) ∧
      (∀ a, (lookupTx pool' a).isSome = (lookupTx pool a).isSome) := by
  unfold update_descendants at hrun
  cases hl : lookupTx pool uid with
  | none => rw [hl] at hrun; cases hrun
  | some ancestor =>
    rw [hl] at hrun
    simp only [] at hrun
    exact upd_loop_WF rank uid eff ancestor.fee ancestor.weight fuel pool mq _ _
      pool' mq' hWF (by unfold wtOf; rw [hl]; rfl) hrun

/-- `rescore_package` preserves the invariant and all non-pool/queue fields
of the assembler. -/
theorem rescore_package_WF (rank : Nat → Nat) (fuel : Nat) (eff : ℚ) :
    ∀ (l : List Nat) (st st' : Assembler),
      WFPool rank st.pool →
      rescore_package fuel eff st l = .ok st' →
      WFPool rank st'.pool ∧ st'.weight = st.weight ∧ st'.blocks = st.blocks ∧
        st'.inv = st.inv ∧ st'.fees = st.fees ∧
        st'.next_height = st.next_height ∧ st'.overflow = st.overflow := by
  intro l
  induction l with
  | nil =>
    intro st st' hWF hrun
    simp only [rescore_package, Res.ok.injEq] at hrun
    subst hrun
    exact ⟨hWF, rfl, rfl, rfl, rfl, rfl, rfl⟩
  | cons uid rest ih =>
    intro st st' hWF hrun
    simp only [rescore_package] at hrun
    cases hl : lookupTx st.pool uid with
    | none => rw [hl] at hrun; cases hrun
    | some tx =>
      rw [hl] at hrun
      simp only [] at hrun
      by_cases hch : tx.children.isEmpty
      · rw [if_pos hch] at hrun
        exact ih st st' hWF hrun
      · rw [if_neg hch] at hrun
        cases hupd : update_descendants fuel st.pool st.modified tx.uid eff with
        | ok pm =>
          rw [hupd] at hrun
          simp only [Res.bind_ok] at hrun
          obtain ⟨hWF₂, _, _⟩ :=
            update_descendants_WF rank fuel st.pool st.modified tx.uid eff
              pm.1 pm.2 hWF hupd
          obtain ⟨h1, h2, h3, h4, h5, h6, h7⟩ := ih _ st' hWF₂ hrun
          exact ⟨h1, h2, h3, h4, h5, h6, h7⟩
        | panicked => rw [hupd] at hrun; cases hrun
        | noFuel => rw [hupd] at hrun; cases hrun

/-- Committing one member: only the `used` flag changes in the pool, the
block weight grows by exactly the member's pool weight (0 when absent). -/
theorem commit_member_spec (rank : Nat → Nat) (st : Assembler) (uid : Nat)
    (hWF : WFPool rank st.pool) :
    WFPool rank (commit_member st uid).pool ∧
      (commit_member st uid).weight = st.weight + wtOf st.pool uid ∧
      (∀ a, wtOf (commit_member st uid).pool a = wtOf st.pool a) ∧
      (∀ a, (lookupTx (commit_member st uid).pool a).isSome =
        (lookupTx st.pool a).isSome) ∧
      (commit_member st uid).blocks = st.blocks ∧
      (commit_member st uid).modified = st.modified ∧
      (commit_member st uid).overflow = st.overflow ∧
      (commit_member st uid).next_height = st.next_height := by
  cases hl : lookupTx st.pool uid with
  | none =>
    have hcm : commit_member st uid = st := by
      unfold commit_member
      rw [hl]
    rw [hcm]
    refine ⟨hWF, ?_, fun _ => rfl, fun _ => rfl, rfl, rfl, rfl, rfl⟩
    unfold wtOf
    rw [hl]
    rfl
  | some tx =>
    have hcm : commit_member st uid = commit_member_found st uid tx := by
      unfold commit_member
      rw [hl]
    rw [hcm]
    refine ⟨?_, ?_, ?_, ?_, rfl, rfl, rfl, rfl⟩
    · exact WFPool_updateTx rank st.pool uid (fun t => { t with used := true })
        hWF (fun t _ => ⟨rfl, rfl, rfl, rfl, rfl, rfl⟩)
    · show st.weight + tx.weight = st.weight + wtOf st.pool uid
      unfold wtOf
      rw [hl]
      rfl
    · exact fun a => wtOf_updateTx st.pool uid
        (fun t => { t with used := true }) (fun _ _ => rfl) a
    · exact fun a => lookupTx_updateTx_isSome st.pool uid a
        (fun t => { t with used := true })

/-- Folding `commit_member` over a package adds exactly the summed pool
weights of its members. -/
theorem commit_fold_spec (rank : Nat → Nat) :
    ∀ (pkg : List Nat) (st : Assembler), WFPool rank st.pool →
      WFPool rank (pkg.foldl commit_member st).pool ∧
        (pkg.foldl commit_member st).weight =
          st.weight + (pkg.map (wtOf st.pool)).sum ∧
        (∀ a, wtOf (pkg.foldl commit_member st).pool a = wtOf st.pool a) ∧
        (∀ a, (lookupTx (pkg.foldl commit_member st).pool a).isSome =
          (lookupTx st.pool a).isSome) ∧
        (pkg.foldl commit_member st).blocks = st.blocks ∧
        (pkg.foldl commit_member st).modified = st.modified ∧
        (pkg.foldl commit_member st).overflow = st.overflow ∧
        (pkg.foldl commit_member st).next_height = st.next_height := by
  intro pkg
  induction pkg with
  | nil =>
    intro st hWF
    exact ⟨hWF, by simp, fun _ => rfl, fun _ => rfl, rfl, rfl, rfl, rfl⟩
  | cons uid rest ih =>
    intro st hWF
    obtain ⟨c1, c2, c3, c4, c5, c6, c7, c8⟩ := commit_member_spec rank st uid hWF
    obtain ⟨d1, d2, d3, d4, d5, d6, d7, d8⟩ := ih (commit_member st uid) c1
    rw [List.foldl_cons]
    refine ⟨d1, ?_, ?_, ?_, ?_, ?_, ?_, ?_⟩
    · rw [d2, c2]
      have : (rest.map (wtOf (commit_member st uid).pool)).sum =
          (rest.map (wtOf st.pool)).sum := by
        have := ancWeightSum_congr st.pool (commit_member st uid).pool rest c3
        simpa [ancWeightSum] using this
      rw [this]
      simp [List.map_cons, List.sum_cons]
      omega
    · exact fun a => (d3 a).trans (c3 a)
    · exact fun a => (d4 a).trans (c4 a)
    · exact d5.trans c5
    · exact d6.trans c6
    · exact d7.trans c7
    · exact d8.trans c8

/-- The tuples built for a package project back to the ancestor uid list
(using that each record's uid field equals its pool key). -/
theorem package_tuples_spec (pool : Pool) :
    ∀ (l : List Nat) (mq : MQueue) (tl : List (Nat × Nat × Nat)) (mq' : MQueue),
      (∀ a ∈ l, ∀ t, lookupTx pool a = some t → t.uid = a) →
      package_tuples pool mq l = .ok (tl, mq') →
      tl.map (fun x => x.2.2) = l := by
  intro l
  induction l with
  | nil =>
    intro mq tl mq' _ hrun
    simp only [package_tuples, Res.ok.injEq, Prod.mk.injEq] at hrun
    obtain ⟨rfl, rfl⟩ := hrun
    rfl
  | cons a rest ih =>
    intro mq tl mq' huid hrun
    simp only [package_tuples] at hrun
    cases hl : lookupTx pool a with
    | none => rw [hl] at hrun; cases hrun
    | some anc =>
      rw [hl] at hrun
      simp only [] at hrun
      cases hrec : package_tuples pool
          (if anc.modified then mqRemove mq anc.uid else mq) rest with
      | ok p =>
        rw [hrec] at hrun
        simp only [Res.bind_ok, Res.ok.injEq, Prod.mk.injEq] at hrun
        obtain ⟨rfl, rfl⟩ := hrun
        have hrest := ih _ p.1 p.2
          (fun a' ha' => huid a' (List.mem_cons_of_mem a ha')) (by rw [hrec])
        simp only [List.map_cons, hrest]
        rw [huid a (List.mem_cons_self a rest) anc hl]
      | panicked => rw [hrec] at hrun; cases hrun
      | noFuel => rw [hrec] at hrun; cases hrun

/-- `add_package_tx` adds exactly `tx.ancestor_weight` to the block weight
(the fit test's quantity), keeps the invariant, and does not emit blocks. -/
theorem add_package_tx_spec (rank : Nat → Nat) (st : Assembler) (tx : AuditTx)
    (k : Nat) (hWF : WFPool rank st.pool) (hk : lookupTx st.pool k = some tx)
    (st' : Assembler) (pkg : List Nat)
    (hrun : add_package_tx st tx = .ok (st', pkg)) :
    WFPool rank st'.pool ∧ st'.weight = st.weight + tx.ancestor_weight ∧
      st'.blocks = st.blocks ∧
      (∀ a, wtOf st'.pool a = wtOf st.pool a) ∧
      (∀ a, (lookupTx st'.pool a).isSome = (lookupTx st.pool a).isSome) ∧
      st'.overflow = st.overflow ∧ st'.next_height = st.next_height := by
  obtain ⟨w1, _, _, w4, w5, _⟩ := hWF k tx hk
  have hwtk : wtOf st.pool tx.uid = tx.weight := by
    unfold wtOf
    rw [w1, hk]
    rfl
  unfold add_package_tx at hrun
  by_cases hemp : tx.ancestors.isEmpty
  · rw [if_pos hemp] at hrun
    simp only [Res.bind_ok, Res.ok.injEq, Prod.mk.injEq] at hrun
    obtain ⟨rfl, rfl⟩ := hrun
    have hanc_nil : tx.ancestors = [] := List.isEmpty_iff.mp hemp
    have hst : ({ st with modified := st.modified } : Assembler) = st := rfl
    rw [hst]
    obtain ⟨d1, d2, d3, d4, d5, _, d7, d8⟩ :=
      commit_fold_spec rank [tx.uid] st hWF
    refine ⟨d1, ?_, d5, d3, d4, d7, d8⟩
    rw [d2]
    have : tx.ancestor_weight = tx.weight := by
      rw [w5, hanc_nil]
      simp [ancWeightSum]
    simp [this, hwtk]
  · rw [if_neg hemp] at hrun
    cases htp : package_tuples st.pool st.modified tx.ancestors with
    | ok p =>
      rw [htp] at hrun
      simp only [Res.bind_ok, Res.ok.injEq, Prod.mk.injEq] at hrun
      obtain ⟨rfl, rfl⟩ := hrun
      have htuples : p.1.map (fun x => x.2.2) = tx.ancestors :=
        package_tuples_spec st.pool tx.ancestors st.modified p.1 p.2
          (fun a ha t ht => ((hWF a t ht).1))
          (by rw [htp])
      set sorted := sortBy compare_ancestor_count
        ((tx.ancestors.length, tx.order, tx.uid) :: p.1) with hsorted
      have hperm : (sorted.map (fun x => x.2.2)).Perm
          (tx.uid :: tx.ancestors) := by
        have h₁ := sortBy_perm compare_ancestor_count
          ((tx.ancestors.length, tx.order, tx.uid) :: p.1)
        have h₂ := h₁.map (fun x : Nat × Nat × Nat => x.2.2)
        simpa [htuples] using h₂
      obtain ⟨d1, d2, d3, d4, d5, _, d7, d8⟩ :=
        commit_fold_spec rank (sorted.map (fun x => x.2.2))
          { st with modified := p.2 } hWF
      refine ⟨d1, ?_, d5, d3, d4, d7, d8⟩
      rw [d2]
      have hsum : ((sorted.map (fun x => x.2.2)).map
          (wtOf ({ st with modified := p.2 } : Assembler).pool)).sum =
          wtOf st.pool tx.uid + ancWeightSum st.pool tx.ancestors := by
        have := (hperm.map (wtOf st.pool)).sum_eq
        simpa [ancWeightSum] using this
      rw [hsum, hwtk, w5]
    | panicked => rw [htp] at hrun; cases hrun
    | noFuel => rw [htp] at hrun; cases hrun

theorem next_audit_tx_spec (pool : Pool) :
    ∀ (stack : List Nat) (r : Option AuditTx × List Nat),
      next_audit_tx pool stack = .ok r →
      ∀ tx, r.1 = some tx → ∃ k, lookupTx pool k = some tx := by
  intro stack
  induction stack with
  | nil =>
    intro r hrun tx htx
    simp only [next_audit_tx, Res.ok.injEq] at hrun
    subst hrun
    cases htx
  | cons uid rest ih =>
    intro r hrun tx htx
    simp only [next_audit_tx] at hrun
    cases hl : lookupTx pool uid with
    | none => rw [hl] at hrun; cases hrun
    | some t =>
      rw [hl] at hrun
      simp only [] at hrun
      by_cases hu : t.used
      · rw [if_pos hu] at hrun
        exact ih r hrun tx htx
      · rw [if_neg hu] at hrun
        simp only [Res.ok.injEq] at hrun
        subst hrun
        simp only [] at htx
        exact ⟨uid, by rw [hl, Option.some.inj htx]⟩

theorem next_modified_go_spec (pool : Pool) :
    ∀ (fuel : Nat) (mq : MQueue) (r : Option AuditTx × MQueue),
      next_modified_go pool fuel mq = .ok r →
      ∀ tx, r.1 = some tx → ∃ k, lookupTx pool k = some tx := by
  intro fuel
  induction fuel with
  | zero => intro mq r hrun; cases hrun
  | succ fuel ih =>
    intro mq r hrun tx htx
    simp only [next_modified_go] at hrun
    cases hp : mqPeek mq with
    | none =>
      rw [hp] at hrun
      simp only [Res.ok.injEq] at hrun
      subst hrun
      cases htx
    | some kv =>
      rw [hp] at hrun
      simp only [] at hrun
      cases hl : lookupTx pool kv.1 with
      | none => rw [hl] at hrun; cases hrun
      | some t =>
        rw [hl] at hrun
        simp only [] at hrun
        by_cases hu : t.used
        · rw [if_pos hu] at hrun
          exact ih (mqPop mq) r hrun tx htx
        · rw [if_neg hu] at hrun
          simp only [Res.ok.injEq] at hrun
          subst hrun
          simp only [] at htx
          exact ⟨kv.1, by rw [hl, Option.some.inj htx]⟩

/-- `make_block` reports the current accumulated weight, and carries a
height exactly when it was asked for a full block. -/
theorem make_block_spec (st : Assembler) (full : Bool) (blk : BlockSummary)
    (h : make_block st full = .ok blk) :
    blk.weight = st.weight ∧
      blk.height = (if full then some st.next_height else none) := by
  unfold make_block at h
  cases full with
  | false =>
    simp only [Bool.false_eq_true, if_false, Res.ok.injEq] at h
    subst h
    exact ⟨rfl, rfl⟩
  | true =>
    simp only [if_true] at h
    cases hh : histogram_generate st.pool st.inv.txn with
    | ok hist =>
      rw [hh] at h
      simp only [Res.bind_ok] at h
      cases hms : median_from_sorted (sortBy qcmp st.inv.scores) with
      | none => rw [hms] at h; cases h
      | some med =>
        rw [hms] at h
        cases hts : target_feerate (sortBy qcmp st.inv.scores) with
        | none => rw [hts] at h; cases h
        | some cut =>
          rw [hts] at h
          simp only [Res.ok.injEq] at h
          subst h
          exact ⟨rfl, rfl⟩
    | panicked => rw [hh] at h; cases h
    | noFuel => rw [hh] at h; cases h

/-- Recycling the overflow touches only the modified queue, the stack and
the overflow list. -/
theorem recycle_overflow_spec :
    ∀ (l : List Nat) (st : Assembler) (stack : List Nat)
      (st' : Assembler) (stack' : List Nat),
      recycle_overflow st stack l = .ok (st', stack') →
      st'.pool = st.pool ∧ st'.weight = st.weight ∧ st'.blocks = st.blocks ∧
        st'.next_height = st.next_height ∧ st'.inv = st.inv ∧
        st'.fees = st.fees := by
  intro l
  induction l with
  | nil =>
    intro st stack st' stack' hrun
    simp only [recycle_overflow, Res.ok.injEq, Prod.mk.injEq] at hrun
    obtain ⟨rfl, rfl⟩ := hrun
    exact ⟨rfl, rfl, rfl, rfl, rfl, rfl⟩
  | cons uid rest ih =>
    intro st stack st' stack' hrun
    simp only [recycle_overflow] at hrun
    cases hl : lookupTx st.pool uid with
    | none => rw [hl] at hrun; cases hrun
    | some tx =>
      rw [hl] at hrun
      simp only [] at hrun
      by_cases hu : tx.used
      · rw [if_pos hu] at hrun
        exact ih st stack st' stack' hrun
      · rw [if_neg hu] at hrun
        by_cases hm : tx.modified
        · rw [if_pos hm] at hrun
          obtain ⟨h1, h2, h3, h4, h5, h6⟩ := ih _ stack st' stack' hrun
          exact ⟨h1, h2, h3, h4, h5, h6⟩
        · rw [if_neg hm] at hrun
          exact ih st _ st' stack' hrun

set_option maxHeartbeats 1000000 in
/-- Choosing a candidate changes only the modified queue and the stack, and
the candidate comes from one of the two sources. -/
theorem choose_candidate_spec (st₁ : Assembler) (stack₁ : List Nat)
    (a? m? : Option AuditTx) (tx : AuditTx) (st₂ : Assembler)
    (stack₂ : List Nat)
    (h : choose_candidate st₁ stack₁ a? m? = some (tx, st₂, stack₂)) :
    st₂.pool = st₁.pool ∧ st₂.weight = st₁.weight ∧ st₂.blocks = st₁.blocks ∧
      st₂.inv = st₁.inv ∧ st₂.next_height = st₁.next_height ∧
      st₂.overflow = st₁.overflow ∧ st₂.fees = st₁.fees ∧
      (a? = some tx ∨ m? = some tx) := by
  cases a? with
  | none =>
    cases m? with
    | none => cases h
    | some m =>
      have h' : (some (m, { st₁ with modified := mqPop st₁.modified }, stack₁) :
          Option (AuditTx × Assembler × List Nat)) = some (tx, st₂, stack₂) := h
      injection h' with h''
      injection h'' with h1 h2
      injection h2 with h2 h3
      subst h1; subst h2; subst h3
      exact ⟨rfl, rfl, rfl, rfl, rfl, rfl, rfl, Or.inr rfl⟩
  | some a =>
    cases m? with
    | none =>
      have h' : (some (a, st₁, stack₁.tail) :
          Option (AuditTx × Assembler × List Nat)) = some (tx, st₂, stack₂) := h
      injection h' with h''
      injection h'' with h1 h2
      injection h2 with h2 h3
      subst h1; subst h2; subst h3
      exact ⟨rfl, rfl, rfl, rfl, rfl, rfl, rfl, Or.inl rfl⟩
    | some m =>
      have hcm : choose_candidate st₁ stack₁ (some a) (some m) =
          match auditTxCmp a m with
          | .eq => some (m, { st₁ with modified := mqPop st₁.modified }, stack₁.tail)
          | .lt => some (m, { st₁ with modified := mqPop st₁.modified }, stack₁)
          | .gt => some (a, st₁, stack₁.tail) := rfl
      rw [hcm] at h
      cases hq : auditTxCmp a m with
      | eq =>
        rw [hq] at h
        injection h with h''
        injection h'' with h1 h2
        injection h2 with h2 h3
        subst h1; subst h2; subst h3
        exact ⟨rfl, rfl, rfl, rfl, rfl, rfl, rfl, Or.inr rfl⟩
      | lt =>
        rw [hq] at h
        injection h with h''
        injection h'' with h1 h2
        injection h2 with h2 h3
        subst h1; subst h2; subst h3
        exact ⟨rfl, rfl, rfl, rfl, rfl, rfl, rfl, Or.inr rfl⟩
      | gt =>
        rw [hq] at h
        injection h with h''
        injection h'' with h1 h2
        injection h2 with h2 h3
        subst h1; subst h2; subst h3
        exact ⟨rfl, rfl, rfl, rfl, rfl, rfl, rfl, Or.inl rfl⟩

/-- The weight part of the loop invariant: while fewer than `BLOCK_GOAL`
blocks have been emitted the accumulator is strictly below the cap, and
every already-emitted full block respects the cap. -/
def WeightInv (st : Assembler) : Prop :=
  (st.blocks.length < BLOCK_GOAL → st.weight < MAX_BLOCK_WU) ∧
  (∀ b ∈ st.blocks, b.height ≠ none → b.weight ≤ MAX_BLOCK_WU)

/-- One full run of the selection loop preserves the weight invariant. -/
theorem block_loop_WF (rank : Nat → Nat) :
    ∀ (fuel : Nat) (st : Assembler) (stack : List Nat) (st' : Assembler),
      WFPool rank st.pool → WeightInv st →
      block_loop fuel st stack = .ok st' →
      WeightInv st' := by
  intro fuel
  induction fuel with
  | zero => intro st stack st' _ _ hrun; cases hrun
  | succ fuel ih =>
    intro st stack st' hWF hInv hrun
    simp only [block_loop] at hrun
    by_cases hexit : (stack.isEmpty && st.modified.isEmpty) = true
    · rw [if_pos hexit] at hrun
      simp only [Res.ok.injEq] at hrun
      subst hrun
      exact hInv
    · rw [if_neg hexit] at hrun
      cases h₁ : next_audit_tx st.pool stack with
      | panicked => rw [h₁] at hrun; cases hrun
      | noFuel => rw [h₁] at hrun; cases hrun
      | ok r₁ =>
        rw [h₁] at hrun
        obtain ⟨a?, stack₁⟩ := r₁
        simp only [Res.bind_ok] at hrun
        cases h₂ : next_modified_tx st.pool st.modified with
        | panicked => rw [h₂] at hrun; cases hrun
        | noFuel => rw [h₂] at hrun; cases hrun
        | ok r₂ =>
          rw [h₂] at hrun
          obtain ⟨m?, mq₁⟩ := r₂
          simp only [Res.bind_ok] at hrun
          cases hc : choose_candidate { st with modified := mq₁ } stack₁ a? m? with
          | none =>
            rw [hc] at hrun
            simp only [Res.ok.injEq] at hrun
            subst hrun
            exact hInv
          | some trip =>
            obtain ⟨tx, st₂, stack₂⟩ := trip
            rw [hc] at hrun
            simp only [] at hrun
            obtain ⟨cp, cw, cb, cinv, cnh, cof, cf, csrc⟩ :=
              choose_candidate_spec _ stack₁ a? m? tx st₂ stack₂ hc
            have hpool₂ : st₂.pool = st.pool := cp
            have hWF₂ : WFPool rank st₂.pool := by rw [hpool₂]; exact hWF
            have hw₂ : st₂.weight = st.weight := cw
            have hb₂ : st₂.blocks = st.blocks := cb
            have hk : ∃ k, lookupTx st₂.pool k = some tx := by
              rw [hpool₂]
              rcases csrc with hsrc | hsrc
              · exact next_audit_tx_spec st.pool stack (a?, stack₁) h₁ tx
                  (by rw [hsrc])
              · exact next_modified_go_spec st.pool (st.modified.length + 1)
                  st.modified (m?, mq₁) h₂ tx (by rw [hsrc])
            obtain ⟨k, hkl⟩ := hk
            -- split on the fit-or-bypass branch
            split at hrun
            next hfit =>
              cases h₃ : add_package_tx st₂ tx with
              | panicked => rw [h₃] at hrun; cases hrun
              | noFuel => rw [h₃] at hrun; cases hrun
              | ok p₃ =>
                rw [h₃] at hrun
                obtain ⟨st₃, pkg⟩ := p₃
                simp only [Res.bind_ok] at hrun
                obtain ⟨hWF₃, hw₃, hb₃, _, _, _, _⟩ :=
                  add_package_tx_spec rank st₂ tx k hWF₂ hkl st₃ pkg h₃
                cases h₄ : rescore_package fuel
                    (match tx.dependency_rate with
                     | none => tx.score
                     | some d => min d tx.score) st₃ pkg with
                | panicked => rw [h₄] at hrun; cases hrun
                | noFuel => rw [h₄] at hrun; cases hrun
                | ok st₄ =>
                  rw [h₄] at hrun
                  simp only [Res.bind_ok] at hrun
                  obtain ⟨hWF₄, hw₄, hb₄, _, _, _, _⟩ :=
                    rescore_package_WF rank fuel _ pkg st₃ st₄ hWF₃ h₄
                  have hWF₅ : WFPool rank
                      ({ st₄ with inv := { st₄.inv with failures := 0 } } :
                        Assembler).pool := hWF₄
                  have hInv₅ : WeightInv
                      ({ st₄ with inv := { st₄.inv with failures := 0 } } :
                        Assembler) := by
                    constructor
                    · intro hlen
                      show st₄.weight < MAX_BLOCK_WU
                      rw [hw₄, hw₃, hw₂]
                      have hlen' : st.blocks.length < BLOCK_GOAL := by
                        have : st₄.blocks = st.blocks := by rw [hb₄, hb₃, hb₂]
                        simpa [this] using hlen
                      rcases Bool.or_eq_true_iff.mp hfit with hf | hgoal
                      · have := of_decide_eq_true hf
                        unfold test_package_fits at hf
                        have hlt := of_decide_eq_true hf
                        rw [hw₂] at hlt
                        exact hlt
                      · have := of_decide_eq_true hgoal
                        rw [hb₂] at this
                        omega
                    · intro b hb hfull
                      have : st₄.blocks = st.blocks := by rw [hb₄, hb₃, hb₂]
                      rw [this] at hb
                      exact hInv.2 b hb hfull
                  -- the close step
                  split at hrun
                  next hclose =>
                    obtain ⟨_, hlen⟩ := Bool.and_eq_true_iff.mp hclose
                    have hlen' := of_decide_eq_true hlen
                    cases h₆ : make_block
                        { st₄ with inv := { st₄.inv with failures := 0 } } true with
                    | panicked => rw [h₆] at hrun; cases hrun
                    | noFuel => rw [h₆] at hrun; cases hrun
                    | ok blk =>
                      rw [h₆] at hrun
                      simp only [Res.bind_ok] at hrun
                      obtain ⟨hbw, _⟩ := make_block_spec _ true blk h₆
                      have hblkle : blk.weight ≤ MAX_BLOCK_WU := by
                        rw [hbw]
                        exact le_of_lt (hInv₅.1 hlen')
                      cases h₇ : recycle_overflow
                          { Assembler.clear
                              { st₄ with
                                  inv := { st₄.inv with failures := 0 },
                                  blocks :=
                                    ({ st₄ with
                                        inv := { st₄.inv with failures := 0 } } :
                                      Assembler).blocks ++ [blk] } with
                              overflow := [] } stack₂
                          (Assembler.clear
                              { st₄ with
                                  inv := { st₄.inv with failures := 0 },
                                  blocks :=
                                    ({ st₄ with
                                        inv := { st₄.inv with failures := 0 } } :
                                      Assembler).blocks ++ [blk] }).overflow with
                      | panicked => rw [h₇] at hrun; cases hrun
                      | noFuel => rw [h₇] at hrun; cases hrun
                      | ok p₇ =>
                        rw [h₇] at hrun
                        obtain ⟨st₇, stack₃⟩ := p₇
                        simp only [Res.bind_ok] at hrun
                        obtain ⟨rp, rw', rb, _, _, _⟩ :=
                          recycle_overflow_spec _ _ stack₂ st₇ stack₃ h₇
                        refine ih st₇ stack₃ st' ?_ ?_ hrun
                        · rw [rp]
                          exact hWF₄
                        · constructor
                          · intro _
                            rw [rw']
                            show (4000 : Nat) < MAX_BLOCK_WU
                            decide
                          · intro b hb hfull
                            rw [rb] at hb
                            simp only [Assembler.clear, List.mem_append,
                              List.mem_singleton] at hb
                            rcases hb with hb | rfl
                            · exact hInv₅.2 b hb hfull
                            · exact hblkle
                  next hclose =>
                    exact ih _ stack₂ st' hWF₅ hInv₅ hrun
            next hfit =>
              simp only [Res.bind_ok] at hrun
              have hWF₅ : WFPool rank
                  ({ st₂ with
                      overflow := tx.uid :: st₂.overflow,
                      inv := { st₂.inv with failures := st₂.inv.failures + 1 } } :
                    Assembler).pool := hWF₂
              have hInv₅ : WeightInv
                  ({ st₂ with
                      overflow := tx.uid :: st₂.overflow,
                      inv := { st₂.inv with failures := st₂.inv.failures + 1 } } :
                    Assembler) := by
                constructor
                · intro hlen
                  show st₂.weight < MAX_BLOCK_WU
                  rw [hw₂]
                  apply hInv.1
                  simpa [hb₂] using hlen
                · intro b hb hfull
                  have hb' : b ∈ st.blocks := by simpa [hb₂] using hb
                  exact hInv.2 b hb' hfull
              split at hrun
              next hclose =>
                obtain ⟨_, hlen⟩ := Bool.and_eq_true_iff.mp hclose
                have hlen' := of_decide_eq_true hlen
                cases h₆ : make_block
                    { st₂ with
                        overflow := tx.uid :: st₂.overflow,
                        inv := { st₂.inv with failures := st₂.inv.failures + 1 } }
                    true with
                | panicked => rw [h₆] at hrun; cases hrun
                | noFuel => rw [h₆] at hrun; cases hrun
                | ok blk =>
                  rw [h₆] at hrun
                  simp only [Res.bind_ok] at hrun
                  obtain ⟨hbw, _⟩ := make_block_spec _ true blk h₆
                  have hblkle : blk.weight ≤ MAX_BLOCK_WU := by
                    rw [hbw]
                    exact le_of_lt (hInv₅.1 hlen')
                  cases h₇ : recycle_overflow
                      { Assembler.clear
                          { st₂ with
                              overflow := tx.uid :: st₂.overflow,
                              inv :=
                                { st₂.inv with failures := st₂.inv.failures + 1 },
                              blocks :=
                                ({ st₂ with
                                    overflow := tx.uid :: st₂.overflow,
                                    inv :=
                                      { st₂.inv with
                                          failures := st₂.inv.failures + 1 } } :
                                  Assembler).blocks ++ [blk] } with
                          overflow := [] } stack₂
                      (Assembler.clear
                          { st₂ with
                              overflow := tx.uid :: st₂.overflow,
                              inv :=
                                { st₂.inv with failures := st₂.inv.failures + 1 },
                              blocks :=
                                ({ st₂ with
                                    overflow := tx.uid :: st₂.overflow,
                                    inv :=
                                      { st₂.inv with
                                          failures := st₂.inv.failures + 1 } } :
                                  Assembler).blocks ++ [blk] }).overflow with
                  | panicked => rw [h₇] at hrun; cases hrun
                  | noFuel => rw [h₇] at hrun; cases hrun
                  | ok p₇ =>
                    rw [h₇] at hrun
                    obtain ⟨st₇, stack₃⟩ := p₇
                    simp only [Res.bind_ok] at hrun
                    obtain ⟨rp, rw', rb, _, _, _⟩ :=
                      recycle_overflow_spec _ _ stack₂ st₇ stack₃ h₇
                    refine ih st₇ stack₃ st' ?_ ?_ hrun
                    · rw [rp]
                      exact hWF₂
                    · constructor
                      · intro _
                        rw [rw']
                        show (4000 : Nat) < MAX_BLOCK_WU
                        decide
                      · intro b hb hfull
                        rw [rb] at hb
                        simp only [Assembler.clear, List.mem_append,
                          List.mem_singleton] at hb
                        rcases hb with hb | rfl
                        · exact hInv₅.2 b hb hfull
                        · exact hblkle
              next hclose =>
                exact ih _ stack₂ st' hWF₅ hInv₅ hrun

/-- The weight component returned by `sum_ancestor_data` is the sum of the
pool weights of the listed uids. -/
theorem sum_ancestor_data_weight (pool : Pool) :
    ∀ (l : List Nat) (fw : Nat × Nat),
      sum_ancestor_data pool l = .ok fw → fw.2 = ancWeightSum pool l := by
  intro l
  induction l with
  | nil =>
    intro fw h
    simp only [sum_ancestor_data, Res.ok.injEq] at h
    subst h
    simp [ancWeightSum]
  | cons a rest ih =>
    intro fw h
    simp only [sum_ancestor_data] at h
    cases hl : lookupTx pool a with
    | none => rw [hl] at h; cases h
    | some anc =>
      rw [hl] at h
      simp only [] at h
      cases hs : sum_ancestor_data pool rest with
      | panicked => rw [hs] at h; cases h
      | noFuel => rw [hs] at h; cases h
      | ok p =>
        rw [hs] at h
        obtain ⟨f, w⟩ := p
        simp only [Res.bind_ok, Res.ok.injEq] at h
        subst h
        have hw : w = ancWeightSum pool rest := ih (f, w) hs
        simp [ancWeightSum, List.map_cons, List.sum_cons, wtOf, hl] at hw ⊢
        omega

/-- One pass of the parent loop of `set_relatives`, given that the recursive
calls behave (the fuel induction hypothesis `IH`): well-formedness is
preserved, no weight or key changes, nodes ranked at or above `uid` are
untouched, and the accumulated ancestor set stays duplicate-free, present
in the pool and ranked strictly below `uid`. -/
theorem sr_fold_spec (rank : Nat → Nat) (srf : Pool → Nat → Res Pool) (uid : Nat)
    (IH : ∀ pool u pool', WFPool rank pool → srf pool u = .ok pool' →
      WFPool rank pool' ∧ (∀ a, wtOf pool' a = wtOf pool a) ∧
      (∀ a, (lookupTx pool' a).isSome = (lookupTx pool a).isSome) ∧
      (∀ k, rank u < rank k → lookupTx pool' k = lookupTx pool k)) :
    ∀ (ps : List Nat) (pool : Pool) (anc : List Nat) (pool' : Pool)
      (anc' : List Nat),
      WFPool rank pool →
      (∀ p ∈ ps, rank p < rank uid) →
      (∀ a ∈ anc, (lookupTx pool a).isSome = true ∧ rank a < rank uid) →
      anc.Nodup →
      sr_fold srf uid ps pool anc = .ok (pool', anc') →
      WFPool rank pool' ∧
      (∀ a, wtOf pool' a = wtOf pool a) ∧
      (∀ a, (lookupTx pool' a).isSome = (lookupTx pool a).isSome) ∧
      (∀ k, rank uid ≤ rank k → lookupTx pool' k = lookupTx pool k) ∧
      (∀ a ∈ anc', (lookupTx pool' a).isSome = true ∧ rank a < rank uid) ∧
      anc'.Nodup := by
  intro ps
  induction ps with
  | nil =>
    intro pool anc pool' anc' hWF _ hanc hnd hrun
    simp only [sr_fold, Res.ok.injEq, Prod.mk.injEq] at hrun
    obtain ⟨rfl, rfl⟩ := hrun
    exact ⟨hWF, fun a => rfl, fun a => rfl, fun k _ => rfl, hanc, hnd⟩
  | cons p rest ih =>
    intro pool anc pool' anc' hWF hps hanc hnd hrun
    simp only [sr_fold] at hrun
    cases h₁ : srf pool p with
    | panicked => rw [h₁] at hrun; cases hrun
    | noFuel => rw [h₁] at hrun; cases hrun
    | ok pl₁ =>
      rw [h₁] at hrun
      simp only [Res.bind_ok] at hrun
      obtain ⟨hWF₁, hwt₁, hso₁, hfr₁⟩ := IH pool p pl₁ hWF h₁
      cases h₂ : lookupTx pl₁ p with
      | none => rw [h₂] at hrun; cases hrun
      | some parent =>
        rw [h₂] at hrun
        simp only [] at hrun
        obtain ⟨w1, _, _, w4, _, _⟩ := hWF₁ p parent h₂
        have hp : rank p < rank uid := hps p (List.mem_cons_self p rest)
        have hWF₂ : WFPool rank (updateTx pl₁ p
            (fun t => { t with children := insertUid t.children uid })) :=
          WFPool_updateTx rank pl₁ p _ hWF₁
            (fun t _ => ⟨rfl, rfl, rfl, rfl, rfl, rfl⟩)
        have hwt₂ : ∀ a, wtOf (updateTx pl₁ p
            (fun t => { t with children := insertUid t.children uid })) a =
            wtOf pl₁ a :=
          wtOf_updateTx pl₁ p _ (fun t _ => rfl)
        have hso₂ : ∀ a, (lookupTx (updateTx pl₁ p
            (fun t => { t with children := insertUid t.children uid })) a).isSome =
            (lookupTx pl₁ a).isSome :=
          fun a => lookupTx_updateTx_isSome pl₁ p a _
        have hanc₂ : ∀ a ∈ parent.ancestors.foldl insertUid
            (insertUid anc parent.uid),
            (lookupTx (updateTx pl₁ p
              (fun t => { t with children := insertUid t.children uid }))
              a).isSome = true ∧ rank a < rank uid := by
          intro a ha
          rw [foldl_insertUid_mem, mem_insertUid] at ha
          rcases ha with (ha | rfl) | ha
          · obtain ⟨hs, hr⟩ := hanc a ha
            exact ⟨(hso₂ a).trans ((hso₁ a).trans hs), hr⟩
          · rw [w1]
            refine ⟨(hso₂ p).trans ?_, hp⟩
            rw [h₂]
            rfl
          · obtain ⟨hs, hr⟩ := w4 a ha
            exact ⟨(hso₂ a).trans hs, lt_trans hr hp⟩
        have hnd₂ : (parent.ancestors.foldl insertUid
            (insertUid anc parent.uid)).Nodup :=
          foldl_insertUid_nodup _ _ (insertUid_nodup anc parent.uid hnd)
        obtain ⟨g1, g2, g3, g4, g5, g6⟩ :=
          ih _ _ pool' anc' hWF₂
            (fun q hq => hps q (List.mem_cons_of_mem _ hq)) hanc₂ hnd₂ hrun
        refine ⟨g1, ?_, ?_, ?_, g5, g6⟩
        · exact fun a => (g2 a).trans ((hwt₂ a).trans (hwt₁ a))
        · exact fun a => (g3 a).trans ((hso₂ a).trans (hso₁ a))
        · intro k hk
          have hpk : p ≠ k := by
            intro hpk
            rw [hpk] at hp
            omega
          refine (g4 k hk).trans ?_
          rw [lookupTx_updateTx_ne pl₁ p k _ (fun h => hpk h.symm)]
          exact hfr₁ k (lt_of_lt_of_le hp hk)

/-- `set_relatives` preserves pool well-formedness; moreover it changes no
weight and no key set, and leaves every node ranked strictly above `uid`
untouched. -/
theorem set_relatives_WF (rank : Nat → Nat) :
    ∀ (fuel : Nat) (pool : Pool) (uid : Nat) (pool' : Pool),
      WFPool rank pool →
      set_relatives fuel pool uid = .ok pool' →
      WFPool rank pool' ∧ (∀ a, wtOf pool' a = wtOf pool a) ∧
      (∀ a, (lookupTx pool' a).isSome = (lookupTx pool a).isSome) ∧
      (∀ k, rank uid < rank k → lookupTx pool' k = lookupTx pool k) := by
  intro fuel
  induction fuel with
  | zero => intro pool uid pool' _ hrun; cases hrun
  | succ fuel ih =>
    intro pool uid pool' hWF hrun
    simp only [set_relatives] at hrun
    cases hl : lookupTx pool uid with
    | none => rw [hl] at hrun; cases hrun
    | some tx =>
      rw [hl] at hrun
      simp only [] at hrun
      by_cases hrs : tx.relatives_set
      · rw [if_pos hrs] at hrun
        simp only [Res.ok.injEq] at hrun
        subst hrun
        exact ⟨hWF, fun a => rfl, fun a => rfl, fun k _ => rfl⟩
      · rw [if_neg hrs] at hrun
        obtain ⟨w1, w2, _, _, w5, w6⟩ := hWF uid tx hl
        have hancnil : tx.ancestors = [] := w6 (Bool.not_eq_true _ ▸ hrs)
        cases hf : sr_fold (set_relatives fuel) uid tx.parents pool [] with
        | panicked => rw [hf] at hrun; cases hrun
        | noFuel => rw [hf] at hrun; cases hrun
        | ok pr =>
          rw [hf] at hrun
          obtain ⟨pool₁, ancestors⟩ := pr
          simp only [Res.bind_ok] at hrun
          obtain ⟨g1, g2, g3, g4, g5, g6⟩ :=
            sr_fold_spec rank (set_relatives fuel) uid ih tx.parents pool []
              pool₁ ancestors hWF (fun p hp => w2 p hp)
              (by intro a ha; cases ha) List.nodup_nil hf
          cases hs : sum_ancestor_data pool₁ ancestors with
          | panicked => rw [hs] at hrun; cases hrun
          | noFuel => rw [hs] at hrun; cases hrun
          | ok fw =>
            rw [hs] at hrun
            obtain ⟨afee, aweight⟩ := fw
            simp only [Res.bind_ok, Res.ok.injEq] at hrun
            subst hrun
            have hw : aweight = ancWeightSum pool₁ ancestors :=
              sum_ancestor_data_weight pool₁ ancestors (afee, aweight) hs
            have hluid : lookupTx pool₁ uid = some tx :=
              (g4 uid (le_refl _)).trans hl
            have hwtu : ∀ a, wtOf (updateTx pool₁ uid (fun t =>
                { t with
                  ancestors := ancestors
                  ancestor_fee := t.ancestor_fee + afee
                  ancestor_weight := t.ancestor_weight + aweight
                  score := ratScore (t.ancestor_fee + afee)
                    (t.ancestor_weight + aweight)
                  relatives_set := true })) a = wtOf pool₁ a :=
              wtOf_updateTx pool₁ uid _ (fun t _ => rfl)
            refine ⟨?_, ?_, ?_, ?_⟩
            · intro j t hj
              by_cases hjk : j = uid
              · subst hjk
                rw [lookupTx_updateTx_self, hluid] at hj
                simp only [Option.map_some'] at hj
                have ht : t = { tx with
                    ancestors := ancestors
                    ancestor_fee := tx.ancestor_fee + afee
                    ancestor_weight := tx.ancestor_weight + aweight
                    score := ratScore (tx.ancestor_fee + afee)
                      (tx.ancestor_weight + aweight)
                    relatives_set := true } := (Option.some.inj hj).symm
                subst ht
                refine ⟨w1, w2, g6, ?_, ?_, ?_⟩
                · intro a ha
                  obtain ⟨hsm, hr⟩ := g5 a ha
                  exact ⟨(lookupTx_updateTx_isSome pool₁ _ a _).trans hsm, hr⟩
                · show tx.ancestor_weight + aweight = tx.weight + _
                  rw [ancWeightSum_congr pool₁ _ ancestors hwtu, ← hw]
                  rw [hancnil] at w5
                  simp [ancWeightSum] at w5
                  omega
                · intro habs
                  exact Bool.noConfusion habs
              · rw [lookupTx_updateTx_ne pool₁ uid j _ hjk] at hj
                obtain ⟨v1, v2, v3, v4, v5, v6⟩ := g1 j t hj
                refine ⟨v1, v2, v3, ?_, ?_, v6⟩
                · intro a ha
                  exact ⟨(lookupTx_updateTx_isSome pool₁ _ a _).trans (v4 a ha).1,
                    (v4 a ha).2⟩
                · rw [ancWeightSum_congr pool₁ _ t.ancestors hwtu]
                  exact v5
            · exact fun a => (hwtu a).trans (g2 a)
            · exact fun a =>
                (lookupTx_updateTx_isSome pool₁ uid a _).trans (g3 a)
            · intro k hk
              have hku : k ≠ uid := by
                intro hku
                rw [hku] at hk
                omega
              rw [lookupTx_updateTx_ne pool₁ uid k _ hku]
              exact g4 k (le_of_lt hk)

theorem set_relatives_range_WF (rank : Nat → Nat) (fuel : Nat) :
    ∀ (l : List Nat) (pool pool' : Pool), WFPool rank pool →
      set_relatives_range fuel pool l = .ok pool' → WFPool rank pool' := by
  intro l
  induction l with
  | nil =>
    intro pool pool' hWF hrun
    simp only [set_relatives_range, Res.ok.injEq] at hrun
    subst hrun
    exact hWF
  | cons u rest ih =>
    intro pool pool' hWF hrun
    simp only [set_relatives_range] at hrun
    cases h₁ : set_relatives fuel pool u with
    | panicked => rw [h₁] at hrun; cases hrun
    | noFuel => rw [h₁] at hrun; cases hrun
    | ok p₁ =>
      rw [h₁] at hrun
      simp only [Res.bind_ok] at hrun
      exact ih p₁ pool' (set_relatives_WF rank fuel pool u p₁ hWF h₁).1 hrun

theorem set_relatives_all_WF (rank : Nat → Nat) (fuel : Nat)
    (pool pool' : Pool) (hWF : WFPool rank pool)
    (hrun : set_relatives_all fuel pool = .ok pool') : WFPool rank pool' :=
  set_relatives_range_WF rank fuel (List.range pool.length) pool pool' hWF hrun

/-- C5: Every full block (a BlockSummary emitted with is_full = true,
carrying a height) has weight ≤ MAX_BLOCK_WU = 4,000,000 WU, with the
4,000-WU coinbase reserve included in that weight; only the final tail
block may exceed this bound.  Proved for every fresh input pool (the state
`into_pool` + `pre_fill` produce) whose parent graph is ranked — hence
acyclic, the situation in which `set_relatives` can link at all: in a
successful `generate` run every emitted block that carries a height
respects the cap (the height-less tail block is exempt). -/
theorem c5_full_blocks_within_cap (rank : Nat → Nat) (fuel : Nat)
    (pool : Pool) (bs : List BlockSummary)
    (hfresh : freshPool pool = true) (hrank : rankedParents rank pool = true)
    (hrun : generate fuel pool = .ok bs) :
    ∀ b ∈ bs, b.height ≠ none → b.weight ≤ MAX_BLOCK_WU := by
  unfold generate at hrun
  cases hsr : set_relatives_all fuel pool with
  | panicked => rw [hsr] at hrun; cases hrun
  | noFuel => rw [hsr] at hrun; cases hrun
  | ok pool₁ =>
    rw [hsr] at hrun
    simp only [Res.bind_ok] at hrun
    have hWF₁ : WFPool rank pool₁ :=
      set_relatives_all_WF rank fuel pool pool₁
        (freshPool_WF pool rank hfresh hrank) hsr
    cases hbl : block_loop fuel (Assembler.fromPool pool₁)
        (((sortBy auditTxCmp (poolValues pool₁)).map (·.uid)).reverse) with
    | panicked => rw [hbl] at hrun; cases hrun
    | noFuel => rw [hbl] at hrun; cases hrun
    | ok st =>
      rw [hbl] at hrun
      simp only [Res.bind_ok] at hrun
      have hInv : WeightInv st := by
        refine block_loop_WF rank fuel (Assembler.fromPool pool₁) _ st hWF₁
          ⟨?_, ?_⟩ hbl
        · intro _
          show (4000 : Nat) < MAX_BLOCK_WU
          decide
        · intro b hb
          cases hb
      by_cases hempty : ((Assembler.inv st).txn).isEmpty = true
      · rw [if_pos hempty] at hrun
        simp only [Res.ok.injEq] at hrun
        subst hrun
        exact hInv.2
      · rw [if_neg hempty] at hrun
        cases hmb : make_block st false with
        | panicked => rw [hmb] at hrun; cases hrun
        | noFuel => rw [hmb] at hrun; cases hrun
        | ok blk =>
          rw [hmb] at hrun
          simp only [Res.bind_ok, Res.ok.injEq] at hrun
          subst hrun
          intro b hb hfull
          rcases List.mem_append.mp hb with hb | hb
          · exact hInv.2 b hb hfull
          · rw [List.mem_singleton] at hb
            subst hb
            have := (make_block_spec st false b hmb).2
            simp only [if_neg (Bool.false_ne_true)] at this
            exact absurd this hfull

/-- Witness: the singleton pool is fresh and identity-ranked, `generate`
succeeds on it, and the theorem bounds its emitted blocks. -/
theorem c5_full_blocks_within_cap_witness :
    freshPool c7Pool = true ∧
      (∀ b ∈ [c7Block], b.height ≠ none → b.weight ≤ MAX_BLOCK_WU) :=
  ⟨by decide,
    c5_full_blocks_within_cap (fun k => k) 20 c7Pool [c7Block] (by decide)
      (by decide) (by decide)⟩

end MempoolUtil
